import Mathlib

/-!
# LRU-K replacer of BusTub (`src/buffer/lru_k_replacer.cpp`)

A shallow embedding of `LRUKNode` and `LRUKReplacer` and the properties of the
replacement policy that are checked against it.

Modelling conventions

* `size_t` values are natural numbers below `2 ^ 64`; `curr_size_++` and
  `curr_size_--` wrap modulo `2 ^ 64` as in C++.
* `frame_id_t` is a signed integer, modelled by `Int`.
* A `std::unordered_map` is an association list (`UMap`).  The order of the list
  is the iteration order of the map, which C++ leaves unspecified: statements
  over all states range over all orders, and the reachability relation has a
  `rehash` step that permutes the table.
* Every member function returns its `Outcome` together with the state it leaves
  behind, so that what a throwing call did to the state is visible.
* `RecordAccess` reads the clock; the reading is a parameter of the model.
-/

namespace bustub

/-- Largest value of `size_t` (`std::numeric_limits<size_t>::max()`). -/
def SIZE_MAX : Nat := 2 ^ 64 - 1

/-- The exception class thrown by the replacer: `throw Exception{std::string{...}}`.
It carries only its message. -/
structure Exception where
  message : String
deriving DecidableEq, Repr

/-- How a call ends: it returns a value, it throws, or it runs into undefined
behaviour of C++ (reading `front()` of an empty list, using an uninitialised
local). -/
inductive Outcome (α : Type) where
  | returned (value : α)
  | thrown (e : Exception)
  | undefined
deriving DecidableEq, Repr

/-- Modelled from the spec: the class declaration of `LRUKNode`
(`lru_k_replacer.h`) is not part of the sources.  The fields are the ones the
member functions use: `history_` (oldest timestamp first), `k_` and
`is_evictable_`, the flag being `false` on creation. -/
structure LRUKNode where
  history_ : List Nat
  k_ : Nat
  is_evictable_ : Bool
deriving DecidableEq, Repr

namespace LRUKNode

/-- `LRUKNode::LRUKNode(size_t k) : k_(k)`: empty history, flag at its default. -/
def ofK (k : Nat) : LRUKNode := { history_ := [], k_ := k, is_evictable_ := false }

/-- The node `node_store_[frame_id]` value-initialises for a key that is not yet
in the map. -/
def fresh : LRUKNode := { history_ := [], k_ := 0, is_evictable_ := false }

/-- `LRUKNode::operator=`: copies `k_` and nothing else. -/
def assign (self other : LRUKNode) : LRUKNode := { self with k_ := other.k_ }

/-- `LRUKNode::Append`: `push_back(ts)`, then `pop_front()` when the size exceeds `k_`. -/
def Append (self : LRUKNode) (ts : Nat) : LRUKNode :=
  let pushed := self.history_ ++ [ts]
  if pushed.length > self.k_ then { self with history_ := pushed.tail }
  else { self with history_ := pushed }

/-- `LRUKNode::GetKDistance`: `nullopt` when fewer than `k_` timestamps are kept,
otherwise `history_.front()`.  The list is empty there only when `k_ = 0`, which
the contract of `New` (`k ≥ 1`) rules out; that read is left undefined. -/
def GetKDistance (self : LRUKNode) : Outcome (Option Nat) :=
  if self.history_.length < self.k_ then .returned none
  else
    match self.history_.head? with
    | some front => .returned (some front)
    | none => .undefined

/-- `LRUKNode::GetLastest`: `history_.back()`.  On an empty list the read is
outside the C++ standard; the `std::list` of libstdc++ keeps its size in the
sentinel node, at the place where a node keeps its value, and `back()` of an empty
list reads that size, 0. -/
def GetLastest (self : LRUKNode) : Outcome Nat :=
  match self.history_.getLast? with
  | some back => .returned back
  | none => .returned 0

/-- `LRUKNode::IsEvictable`. -/
def IsEvictable (self : LRUKNode) : Bool := self.is_evictable_

/-- `LRUKNode::SetIsEvictable`. -/
def SetIsEvictable (self : LRUKNode) (is_evictable : Bool) : LRUKNode :=
  { self with is_evictable_ := is_evictable }

end LRUKNode

/-- A `std::unordered_map<frame_id_t, V>`: its entries in iteration order. -/
abbrev UMap (V : Type) := List (Int × V)

namespace UMap

/-- `m.find(key)`: the mapped value, `none` for `m.end()`. -/
def find {V : Type} (m : UMap V) (key : Int) : Option V :=
  match m with
  | [] => none
  | (k, v) :: rest => if k = key then some v else find rest key

/-- Applies `f` to the value mapped to `key` (writing through `auto &node = m[key]`
for a key that is present). -/
def modify {V : Type} (m : UMap V) (key : Int) (f : V → V) : UMap V :=
  m.map (fun p => if p.1 = key then (p.1, f p.2) else p)

/-- `m[key]`: the mapped value and the map after the access; a key that is
missing is added with the value-initialised `dflt`. -/
def subscript {V : Type} (m : UMap V) (key : Int) (dflt : V) : V × UMap V :=
  match find m key with
  | some v => (v, m)
  | none => (dflt, m ++ [(key, dflt)])

/-- `m[key] = value` for a map of numbers. -/
def set (m : UMap Nat) (key : Int) (value : Nat) : UMap Nat :=
  modify (subscript m key 0).2 key (fun _ => value)

/-- `m.erase(key)`. -/
def erase {V : Type} (m : UMap V) (key : Int) : UMap V :=
  m.filter (fun p => decide (p.1 ≠ key))

end UMap

/-- Modelled from the spec: the class declaration of `LRUKReplacer`
(`lru_k_replacer.h`) is not part of the sources.  The fields are the ones the
member functions use; `curr_size_` starts at `0` and `node_store_` empty. -/
structure LRUKReplacer where
  node_store_ : UMap LRUKNode
  curr_size_ : Nat
  replacer_size_ : Nat
  k_ : Nat
deriving DecidableEq, Repr

/-- `LRUKReplacer::LRUKReplacer(size_t num_frames, size_t k)`. -/
def New (num_frames k : Nat) : LRUKReplacer :=
  { node_store_ := [], curr_size_ := 0, replacer_size_ := num_frames, k_ := k }

/-- The test `frame_id < 0 || static_cast<size_t>(frame_id) >= replacer_size_`. -/
def invalidFrame (self : LRUKReplacer) (frame_id : Int) : Bool :=
  decide (frame_id < 0) || decide (frame_id.toNat ≥ self.replacer_size_)

/-- The map after `if (find(frame_id) == end()) node_store_[frame_id] = LRUKNode{k_};`. -/
def ensureNode (self : LRUKReplacer) (frame_id : Int) : UMap LRUKNode :=
  match UMap.find self.node_store_ frame_id with
  | some _ => self.node_store_
  | none =>
    UMap.modify (UMap.subscript self.node_store_ frame_id LRUKNode.fresh).2 frame_id
      (fun n => n.assign (LRUKNode.ofK self.k_))

/-- `LRUKReplacer::RecordAccess`; `ts` is the clock reading cast to `size_t`. -/
def RecordAccess (self : LRUKReplacer) (frame_id : Int) (ts : Nat) :
    Outcome Unit × LRUKReplacer :=
  if invalidFrame self frame_id then (.thrown ⟨"invalid frame_id"⟩, self)
  else
    let store := (UMap.subscript (ensureNode self frame_id) frame_id LRUKNode.fresh).2
    (.returned (), { self with node_store_ := UMap.modify store frame_id (fun n => n.Append ts) })

/-- `LRUKReplacer::SetEvictable`. -/
def SetEvictable (self : LRUKReplacer) (frame_id : Int) (set_evictable : Bool) :
    Outcome Unit × LRUKReplacer :=
  if invalidFrame self frame_id then (.thrown ⟨"invalid frame_id"⟩, self)
  else
    let (frame_node, store) := UMap.subscript (ensureNode self frame_id) frame_id LRUKNode.fresh
    if frame_node.IsEvictable && !set_evictable then
      (.returned (),
        { self with
          node_store_ := UMap.modify store frame_id (fun n => n.SetIsEvictable false)
          curr_size_ := (self.curr_size_ + 2 ^ 64 - 1) % 2 ^ 64 })
    else if !frame_node.IsEvictable && set_evictable then
      (.returned (),
        { self with
          node_store_ := UMap.modify store frame_id (fun n => n.SetIsEvictable set_evictable)
          curr_size_ := (self.curr_size_ + 1) % 2 ^ 64 })
    else (.returned (), { self with node_store_ := store })

/-- `LRUKReplacer::Remove`. -/
def Remove (self : LRUKReplacer) (frame_id : Int) : Outcome Unit × LRUKReplacer :=
  if invalidFrame self frame_id then (.thrown ⟨"invalid frame_id"⟩, self)
  else
    match UMap.find self.node_store_ frame_id with
    | none => (.thrown ⟨"invalid frame idaaa"⟩, self)
    | some _ =>
      let (node, store) := UMap.subscript self.node_store_ frame_id LRUKNode.fresh
      if !node.IsEvictable then (.thrown ⟨"invalid frame id bbb"⟩, { self with node_store_ := store })
      else
        (.returned (),
          { self with
            node_store_ := UMap.erase store frame_id
            curr_size_ := (self.curr_size_ + 2 ^ 64 - 1) % 2 ^ 64 })

/-- `LRUKReplacer::Size`. -/
def Size (self : LRUKReplacer) : Nat := self.curr_size_

/-- The locals of the first loop of `Evict`. -/
structure Scan where
  has_less_k : Bool
  less : UMap Nat
  k : UMap Nat
deriving DecidableEq, Repr

/-- One iteration of `for (const auto &pair : node_store_)` in `Evict`. -/
def scanStep (acc : Scan) (pair : Int × LRUKNode) : Outcome Scan :=
  if !pair.2.IsEvictable then .returned acc
  else
    match pair.2.GetKDistance with
    | .undefined => .undefined
    | .thrown e => .thrown e
    | .returned none =>
      match pair.2.GetLastest with
      | .returned latest =>
        .returned { acc with has_less_k := true, less := UMap.set acc.less pair.1 latest }
      | .thrown e => .thrown e
      | .undefined => .undefined
    | .returned (some dist) =>
      if !acc.has_less_k then .returned { acc with k := UMap.set acc.k pair.1 dist }
      else .returned acc

/-- The first loop of `Evict` over the entries of `node_store_` in iteration order. -/
def scan : UMap LRUKNode → Scan → Outcome Scan
  | [], acc => .returned acc
  | pair :: rest, acc =>
    match scanStep acc pair with
    | .returned acc1 => scan rest acc1
    | .thrown e => .thrown e
    | .undefined => .undefined

/-- The second loop of `Evict`: `frame_id` (uninitialised: `none`) and `min` after
`for (const auto &pair : x) if (pair.second < min) ...`. -/
def pickMin : UMap Nat → Option Int × Nat → Option Int × Nat
  | [], acc => acc
  | pair :: rest, acc =>
    if pair.2 < acc.2 then pickMin rest (some pair.1, pair.2) else pickMin rest acc

/-- `LRUKReplacer::Evict`.  The call is undefined when the first loop reads
`front()` of an empty history (only for `k_ = 0`) and when the second loop leaves
`frame_id` uninitialised (no entry of `x` is below `min`); the model then reports
`undefined` and the state as it was. -/
def Evict (self : LRUKReplacer) : Outcome (Option Int) × LRUKReplacer :=
  if self.curr_size_ = 0 then (.returned none, self)
  else
    match scan self.node_store_ { has_less_k := false, less := [], k := [] } with
    | .undefined => (.undefined, self)
    | .thrown e => (.thrown e, self)
    | .returned sc =>
      let x := if sc.has_less_k then sc.less else sc.k
      match (pickMin x (none, SIZE_MAX)).1 with
      | none => (.undefined, self)
      | some frame_id =>
        match Remove self frame_id with
        | (.returned _, after) => (.returned (some frame_id), after)
        | (.thrown e, after) => (.thrown e, after)
        | (.undefined, after) => (.undefined, after)

/-- The number of entries of a table whose flag is set. -/
def evCount (m : UMap LRUKNode) : Nat :=
  (m.filter (fun p => p.2.is_evictable_)).length

/-- The number of entries of the table of a replacer whose flag is set. -/
def evictableCount (self : LRUKReplacer) : Nat := evCount self.node_store_

/-- What holds of every state of a replacer built by `New num_frames k`: the
parameters are kept, no frame is tracked twice, every tracked frame is in range
and its node carries `k`, at most `k` timestamps (none of them `SIZE_MAX`), and
`curr_size_` counts the evictable entries. -/
structure Inv (num_frames k : Nat) (s : LRUKReplacer) : Prop where
  frames_lt : num_frames < 2 ^ 64
  cap : s.replacer_size_ = num_frames
  kk : s.k_ = k
  nodup : (s.node_store_.map Prod.fst).Nodup
  range : ∀ p ∈ s.node_store_, 0 ≤ p.1 ∧ p.1.toNat < num_frames
  node_k : ∀ p ∈ s.node_store_, p.2.k_ = k
  len : ∀ p ∈ s.node_store_, p.2.history_.length ≤ k
  stamps : ∀ p ∈ s.node_store_, ∀ t ∈ p.2.history_, t < SIZE_MAX
  count : s.curr_size_ = evCount s.node_store_

/-- The locals of `Evict` before its first loop. -/
def scanInit : Scan := { has_less_k := false, less := [], k := [] }

/-- The map `x` that the second loop of `Evict` goes through. -/
def candidates (sc : Scan) : UMap Nat := if sc.has_less_k then sc.less else sc.k

/-- The state `Remove` leaves when it erases `frame_id`. -/
def erased (self : LRUKReplacer) (frame_id : Int) : LRUKReplacer :=
  { self with
    node_store_ := UMap.erase self.node_store_ frame_id
    curr_size_ := (self.curr_size_ + 2 ^ 64 - 1) % 2 ^ 64 }

/-- The states a replacer built by `New num_frames k` can be in after any finite
sequence of calls.  The arguments are well-typed: `num_frames` and `k` are
`size_t`, and a clock reading is any `size_t` other than `SIZE_MAX` (a count of
nanoseconds since the epoch, far below it).  `rehash` changes the iteration
order of the table, which the operations leave unspecified.  A call that throws
or is undefined counts as a step; it leaves the state the model gives it. -/
inductive Reachable (num_frames k : Nat) : LRUKReplacer → Prop where
  | new : num_frames < 2 ^ 64 → k < 2 ^ 64 → Reachable num_frames k (New num_frames k)
  | recordAccess (s : LRUKReplacer) (frame_id : Int) (ts : Nat) :
      Reachable num_frames k s → ts < SIZE_MAX →
      Reachable num_frames k (RecordAccess s frame_id ts).2
  | setEvictable (s : LRUKReplacer) (frame_id : Int) (set_evictable : Bool) :
      Reachable num_frames k s → Reachable num_frames k (SetEvictable s frame_id set_evictable).2
  | remove (s : LRUKReplacer) (frame_id : Int) :
      Reachable num_frames k s → Reachable num_frames k (Remove s frame_id).2
  | evict (s : LRUKReplacer) :
      Reachable num_frames k s → Reachable num_frames k (Evict s).2
  | rehash (s : LRUKReplacer) (order : UMap LRUKNode) :
      Reachable num_frames k s → order.Perm s.node_store_ →
      Reachable num_frames k { s with node_store_ := order }

/-- The error the spec calls `InvalidFrame`: the exception of the range check
that opens `RecordAccess`, `SetEvictable` and `Remove`. -/
def InvalidFrame : Exception := ⟨"invalid frame_id"⟩

/-- The error the spec calls `FrameNotEvictable`: the exception `Remove` throws for
a tracked frame whose flag is not set. -/
def FrameNotEvictable : Exception := ⟨"invalid frame id bbb"⟩

/-- A call of one of the four operations that change the replacer. -/
inductive Call where
  | recordAccess (frame_id : Int) (ts : Nat)
  | setEvictable (frame_id : Int) (set_evictable : Bool)
  | remove (frame_id : Int)
  | evict
deriving DecidableEq, Repr

/-- The state a call leaves behind. -/
def Call.apply (s : LRUKReplacer) : Call → LRUKReplacer
  | .recordAccess f ts => (RecordAccess s f ts).2
  | .setEvictable f b => (SetEvictable s f b).2
  | .remove f => (Remove s f).2
  | .evict => (Evict s).2

/-- Whether the clock reading of a call is one a clock can give. -/
def Call.stampOk : Call → Bool
  | .recordAccess _ ts => decide (ts < SIZE_MAX)
  | _ => true

/-- The state after a sequence of calls, first call first. -/
def runCalls (s : LRUKReplacer) : List Call → LRUKReplacer
  | [] => s
  | c :: rest => runCalls (c.apply s) rest

/-- `New(5, 2)` then `SetEvictable(0, true)`: frame 0 is tracked and evictable
without any recorded access. -/
def unrecordedState : LRUKReplacer :=
  runCalls (New 5 2) [.setEvictable 0 true]

/-- Capacity 5, `k = 2`: frame 1 accessed at 1 and 2, frame 2 at 3 and 4, both evictable. -/
def fullHistoryState : LRUKReplacer :=
  runCalls (New 5 2)
    [.recordAccess 1 1, .recordAccess 1 2, .recordAccess 2 3, .recordAccess 2 4,
     .setEvictable 1 true, .setEvictable 2 true]

/-- Capacity 5, `k = 2`: frames 0, 1, 2 accessed once at 1, 2, 3, all evictable. -/
def singleAccessState : LRUKReplacer :=
  runCalls (New 5 2)
    [.recordAccess 0 1, .recordAccess 1 2, .recordAccess 2 3,
     .setEvictable 0 true, .setEvictable 1 true, .setEvictable 2 true]

/-- Capacity 5, `k = 3`: frame 0 accessed at 1 and 4, frame 1 at 2 and 3, both evictable. -/
def interleavedState : LRUKReplacer :=
  runCalls (New 5 3)
    [.recordAccess 0 1, .recordAccess 1 2, .recordAccess 1 3, .recordAccess 0 4,
     .setEvictable 0 true, .setEvictable 1 true]

/-- Capacity 5, `k = 2`: frame 0 accessed at 1 and 2, frame 1 at 3, both evictable. -/
def mixedState : LRUKReplacer :=
  runCalls (New 5 2)
    [.recordAccess 0 1, .recordAccess 0 2, .recordAccess 1 3,
     .setEvictable 0 true, .setEvictable 1 true]

/-- Capacity 5, `k = 2`: frame 3 accessed at 1 and never marked evictable. -/
def pinnedState : LRUKReplacer :=
  runCalls (New 5 2) [.recordAccess 3 1]

/-- The flag of a frame as the table has it; `false` for a frame that is not tracked. -/
def trackedFlag (s : LRUKReplacer) (frame_id : Int) : Bool :=
  match UMap.find s.node_store_ frame_id with
  | some node => node.is_evictable_
  | none => false

/-- The timestamps the table keeps for a frame, oldest first; none for a frame that
is not tracked. -/
def trackedHistory (s : LRUKReplacer) (frame_id : Int) : List Nat :=
  match UMap.find s.node_store_ frame_id with
  | some node => node.history_
  | none => []


/-- The frames recorded since they last entered the table, after `Remove(frame_id)`:
a frame that `Remove` erased is no longer one of them. -/
def recordedAfterRemove (s : LRUKReplacer) (frame_id : Int) (recorded : List Int) : List Int :=
  match (Remove s frame_id).1 with
  | .returned _ => recorded.filter (fun g => decide (g ≠ frame_id))
  | _ => recorded

/-- The frames recorded since they last entered the table, after `Evict()`: the
victim is no longer one of them. -/
def recordedAfterEvict (s : LRUKReplacer) (recorded : List Int) : List Int :=
  match (Evict s).1 with
  | .returned (some victim) => recorded.filter (fun g => decide (g ≠ victim))
  | _ => recorded

/-- The reachable states, each with the frames for which a `RecordAccess` went
through since the frame last entered the table.  The steps are those of
`Reachable`. -/
inductive Traced (num_frames k : Nat) : LRUKReplacer → List Int → Prop where
  | new : num_frames < 2 ^ 64 → k < 2 ^ 64 → Traced num_frames k (New num_frames k) []
  | recordAccess (s : LRUKReplacer) (recorded : List Int) (frame_id : Int) (ts : Nat) :
      Traced num_frames k s recorded → ts < SIZE_MAX →
      Traced num_frames k (RecordAccess s frame_id ts).2
        (if invalidFrame s frame_id then recorded else frame_id :: recorded)
  | setEvictable (s : LRUKReplacer) (recorded : List Int) (frame_id : Int)
      (set_evictable : Bool) :
      Traced num_frames k s recorded →
      Traced num_frames k (SetEvictable s frame_id set_evictable).2 recorded
  | remove (s : LRUKReplacer) (recorded : List Int) (frame_id : Int) :
      Traced num_frames k s recorded →
      Traced num_frames k (Remove s frame_id).2 (recordedAfterRemove s frame_id recorded)
  | evict (s : LRUKReplacer) (recorded : List Int) :
      Traced num_frames k s recorded →
      Traced num_frames k (Evict s).2 (recordedAfterEvict s recorded)
  | rehash (s : LRUKReplacer) (recorded : List Int) (order : UMap LRUKNode) :
      Traced num_frames k s recorded → order.Perm s.node_store_ →
      Traced num_frames k { s with node_store_ := order } recorded


/-- The node after `Append(t1)`, ..., `Append(tn)`, in this order. -/
def appendAll (node : LRUKNode) (ts : List Nat) : LRUKNode :=
  ts.foldl LRUKNode.Append node


/-! ## HyperLogLog (`src/primer/hyperloglog.cpp`, `src/primer/hyperloglog_presto.cpp`)

The hash of the value added (`CalculateHash(val)`, a `hash_t`) is the input of the
model; `binary[i]` of the `std::bitset` built from it is bit `i` of the hash. -/

/-- Modelled from the spec: the macro `BITSET_CAPACITY` is defined in
`primer/hyperloglog.h`, which is not among the sources, and the spec does not give
it; 64 is the number of bits of the hash that the bitset is built from. -/
def BITSET_CAPACITY : Nat := 64

/-- Modelled from the spec: the macro `DENSE_BUCKET_SIZE` is defined in
`primer/hyperloglog_presto.h`, which is not among the sources, and the spec does
not give it; 4 is the width at which `AddElem` splits `zeros_count`
(`zeros_count % (1 << 4)`). -/
def DENSE_BUCKET_SIZE : Nat := 4

/-- Modelled from the spec: the macro `OVERFLOW_BUCKET_SIZE` is defined in
`primer/hyperloglog_presto.h`, which is not among the sources, and the spec does
not give it; 3 is what remains of the 7 bits that `AddElem` keeps of `zeros_count`
(`zeros_count % (1 << 7)`). -/
def OVERFLOW_BUCKET_SIZE : Nat := 3

/-- Largest value of `int`. -/
def INT_MAX : Nat := 2 ^ 31 - 1

/-- The conversion `static_cast<int>(n)` of a container size. -/
def castToInt (n : Nat) : Int :=
  if n % 2 ^ 32 < 2 ^ 31 then ((n % 2 ^ 32 : Nat) : Int) else ((n % 2 ^ 32 : Nat) : Int) - 2 ^ 32

/-- How a call of `AddElem` ends: it returns, the `assert` fails, or it runs into
undefined behaviour (overflow of the `int` `bucket_index`). -/
inductive Ended (α : Type) where
  | returned (value : α)
  | assertFailed
  | undefined
deriving DecidableEq, Repr

/-- The loop `for (int i = BITSET_CAPACITY - bits_; i < BITSET_CAPACITY; i++)` of
`HyperLogLog::AddElem` and of `HyperLogLogPresto::AddElem`, from the values of `i`,
`p` and `bucket_index` on; `none` when `bucket_index += static_cast<int>(pow(2, p))`
leaves the range of `int`.  `fuel` bounds the number of iterations. -/
def bucketIndexLoop (binary : Nat) : Nat → Nat → Nat → Nat → Option Nat
  | 0, _, _, bucket_index => some bucket_index
  | fuel + 1, i, p, bucket_index =>
    if i < BITSET_CAPACITY then
      if binary.testBit i then
        if bucket_index + 2 ^ p ≤ INT_MAX then
          bucketIndexLoop binary fuel (i + 1) (p + 1) (bucket_index + 2 ^ p)
        else none
      else bucketIndexLoop binary fuel (i + 1) (p + 1) bucket_index
    else some bucket_index

/-- The value of `bucket_index` at the `assert` of both `AddElem` functions, for
`0 ≤ bits_ ≤ BITSET_CAPACITY`.  The loop starts at `i = BITSET_CAPACITY - bits_ ≥ 0`
and `i` goes up, so `BITSET_CAPACITY` iterations are never exceeded. -/
def bucketIndex (hash bits : Nat) : Option Nat :=
  bucketIndexLoop hash BITSET_CAPACITY (BITSET_CAPACITY - bits) 0 0

/-- The condition of `assert(bucket_index >= 0 && bucket_index < static_cast<int>(size))`. -/
def bucketAssert (bucket_index size : Nat) : Bool :=
  decide ((0 : Int) ≤ (bucket_index : Int)) && decide ((bucket_index : Int) < castToInt size)

/-- Modelled from the spec: the class declaration of `HyperLogLog`
(`primer/hyperloglog.h`) is not among the sources.  The fields are the ones the
member functions use; `buckets_` holds numbers. -/
structure HyperLogLog where
  cardinality_ : Nat
  buckets_ : List Nat
  bits_ : Nat
deriving DecidableEq, Repr

namespace HyperLogLog

/-- `HyperLogLog::HyperLogLog(int16_t n_bits)`, for `n_bits ≥ 0`: `pow(2, n_bits)` zeros. -/
def New (n_bits : Nat) : HyperLogLog :=
  { cardinality_ := 0, buckets_ := List.replicate (2 ^ n_bits) 0, bits_ := n_bits }

/-- The loop `for (int i = ...; i >= 0; i--)` of `PositionOfLeftmostOne`, with
`i + 1` iterations left. -/
def positionLoop (bset : Nat) : Nat → Nat → Nat
  | 0, p => p
  | i + 1, p => if bset.testBit i then p else positionLoop bset i (p + 1)

/-- `HyperLogLog::PositionOfLeftmostOne`: `i` starts at `BITSET_CAPACITY - bits_ - 1`. -/
def PositionOfLeftmostOne (self : HyperLogLog) (bset : Nat) : Nat :=
  positionLoop bset (BITSET_CAPACITY - self.bits_) 1

/-- `HyperLogLog::AddElem`, from the hash of the value on. -/
def AddElem (self : HyperLogLog) (hash : Nat) : Ended HyperLogLog :=
  match bucketIndex hash self.bits_ with
  | none => .undefined
  | some bucket_index =>
    if bucketAssert bucket_index self.buckets_.length then
      let pos := PositionOfLeftmostOne self hash
      .returned
        { self with
          buckets_ := self.buckets_.set bucket_index (max (self.buckets_.getD bucket_index 0) pos) }
    else .assertFailed

end HyperLogLog

/-- Modelled from the spec: the class declaration of `HyperLogLogPresto`
(`primer/hyperloglog_presto.h`) is not among the sources.  `dense_bucket_` is the
vector of `std::bitset<DENSE_BUCKET_SIZE>` values that the constructor fills, and
`overflow_bucket_`, which the constructor leaves empty and `AddElem` subscripts, a
map from keys to `std::bitset<OVERFLOW_BUCKET_SIZE>` values. -/
structure HyperLogLogPresto where
  dense_bucket_ : List Nat
  overflow_bucket_ : UMap Nat
  cardinality_ : Nat
  bits_ : Nat
deriving DecidableEq, Repr

namespace HyperLogLogPresto

/-- `HyperLogLogPresto::HyperLogLogPresto(int16_t n_leading_bits)`, for
`0 ≤ n_leading_bits ≤ 30`. -/
def New (n_leading_bits : Nat) : HyperLogLogPresto :=
  { dense_bucket_ := List.replicate (2 ^ n_leading_bits) 0, overflow_bucket_ := [],
    cardinality_ := 0, bits_ := n_leading_bits }

/-- The loop that counts `zeros_count` in `AddElem`, from the values of `i` and
`zeros_count` on; `limit` is `BITSET_CAPACITY - bits_` and `fuel` bounds the number
of iterations. -/
def zerosLoop (binary limit : Nat) : Nat → Nat → Nat → Nat
  | 0, _, zeros_count => zeros_count
  | fuel + 1, i, zeros_count =>
    if i < limit then
      if !binary.testBit i then zerosLoop binary limit fuel (i + 1) (zeros_count + 1)
      else zeros_count
    else zeros_count

/-- The value of `zeros_count` after the loop and `zeros_count % (1 << 7)`. -/
def zerosCount (hash bits : Nat) : Nat :=
  zerosLoop hash (BITSET_CAPACITY - bits) BITSET_CAPACITY 0 0 % 2 ^ 7

/-- `HyperLogLogPresto::AddElem`, from the hash of the value on.  `key` is the
conversion of the `int` `bucket_index` to the key type of `overflow_bucket_`, which
the missing class declaration fixes. -/
def AddElem (key : Nat → Int) (self : HyperLogLogPresto) (hash : Nat) :
    Ended HyperLogLogPresto :=
  match bucketIndex hash self.bits_ with
  | none => .undefined
  | some bucket_index =>
    if bucketAssert bucket_index self.dense_bucket_.length then
      let zeros_count := zerosCount hash self.bits_
      let (overflow_old, overflow_map) :=
        UMap.subscript self.overflow_bucket_ (key bucket_index) 0
      let old_value := self.dense_bucket_.getD bucket_index 0 + overflow_old * 2 ^ 4
      if zeros_count > old_value then
        let overflow := zeros_count / 2 ^ 4
        let dense := zeros_count % 2 ^ 4
        .returned
          { self with
            dense_bucket_ := self.dense_bucket_.set bucket_index (dense % 2 ^ DENSE_BUCKET_SIZE)
            overflow_bucket_ :=
              UMap.set overflow_map (key bucket_index) (overflow % 2 ^ OVERFLOW_BUCKET_SIZE) }
      else .returned { self with overflow_bucket_ := overflow_map }
    else .assertFailed

end HyperLogLogPresto


theorem umap_find_none_iff {V : Type} (m : UMap V) (key : Int) :
    UMap.find m key = none ↔ key ∉ m.map Prod.fst := by
  induction m with
  | nil => simp [UMap.find]
  | cons p rest ih =>
    obtain ⟨k, v⟩ := p
    by_cases h : k = key
    · simp [UMap.find, h]
    · have h2 : ¬ key = k := fun e => h e.symm
      simp [UMap.find, h, h2, ih]

theorem umap_find_mem {V : Type} (m : UMap V) (key : Int) (v : V)
    (h : UMap.find m key = some v) : (key, v) ∈ m := by
  induction m with
  | nil => simp [UMap.find] at h
  | cons p rest ih =>
    obtain ⟨k, w⟩ := p
    by_cases hk : k = key
    · simp [UMap.find, hk] at h
      simp [hk, h]
    · simp [UMap.find, hk] at h
      exact List.mem_cons_of_mem _ (ih h)

theorem umap_mem_find {V : Type} (m : UMap V) (hnd : (m.map Prod.fst).Nodup)
    (key : Int) (v : V) (h : (key, v) ∈ m) : UMap.find m key = some v := by
  induction m with
  | nil => simp at h
  | cons p rest ih =>
    obtain ⟨k, w⟩ := p
    simp only [List.map_cons, List.nodup_cons] at hnd
    rcases List.mem_cons.mp h with h1 | h1
    · simp only [Prod.mk.injEq] at h1
      simp [UMap.find, h1.1, h1.2]
    · have hk : k ≠ key := by
        intro e
        apply hnd.1
        rw [e]
        exact List.mem_map_of_mem Prod.fst h1
      simp only [UMap.find, hk, if_false]
      exact ih hnd.2 h1

theorem umap_find_append {V : Type} (m : UMap V) (key : Int) (v : V)
    (h : UMap.find m key = none) : UMap.find (m ++ [(key, v)]) key = some v := by
  induction m with
  | nil => simp [UMap.find]
  | cons p rest ih =>
    obtain ⟨k, w⟩ := p
    by_cases hk : k = key
    · simp [UMap.find, hk] at h
    · simp only [UMap.find, hk, if_false] at h
      simp only [List.cons_append, UMap.find, hk, if_false]
      exact ih h

theorem umap_keys_modify {V : Type} (m : UMap V) (key : Int) (f : V → V) :
    (UMap.modify m key f).map Prod.fst = m.map Prod.fst := by
  induction m with
  | nil => rfl
  | cons p rest ih =>
    simp only [UMap.modify, List.map_cons] at ih ⊢
    rw [ih]
    by_cases hk : p.1 = key <;> simp [hk]

theorem umap_modify_absent {V : Type} (m : UMap V) (key : Int) (f : V → V)
    (h : key ∉ m.map Prod.fst) : UMap.modify m key f = m := by
  induction m with
  | nil => rfl
  | cons p rest ih =>
    simp only [List.map_cons, List.mem_cons, not_or] at h
    have hk : ¬ p.1 = key := fun e => h.1 e.symm
    simp only [UMap.modify, List.map_cons, hk, if_false] at ih ⊢
    rw [ih h.2]

theorem umap_modify_append {V : Type} (m : UMap V) (key : Int) (f : V → V) (d : V)
    (h : key ∉ m.map Prod.fst) :
    UMap.modify (m ++ [(key, d)]) key f = m ++ [(key, f d)] := by
  have h1 := umap_modify_absent m key f h
  simp only [UMap.modify] at h1 ⊢
  simp [h1]

theorem umap_mem_modify {V : Type} (m : UMap V) (key : Int) (f : V → V) (p : Int × V)
    (h : p ∈ UMap.modify m key f) :
    (p ∈ m ∧ p.1 ≠ key) ∨ (p.1 = key ∧ ∃ v, (key, v) ∈ m ∧ p.2 = f v) := by
  simp only [UMap.modify, List.mem_map] at h
  obtain ⟨q, hq, rfl⟩ := h
  by_cases hk : q.1 = key
  · right
    simp only [hk, if_true, true_and]
    exact ⟨q.2, by rw [← hk]; exact hq, rfl⟩
  · left
    simp only [hk, if_false]
    exact ⟨hq, hk⟩

theorem umap_mem_erase {V : Type} (m : UMap V) (key : Int) (p : Int × V) :
    p ∈ UMap.erase m key ↔ p ∈ m ∧ p.1 ≠ key := by
  simp [UMap.erase, List.mem_filter]

theorem umap_subscript_found {V : Type} (m : UMap V) (key : Int) (d v : V)
    (h : UMap.find m key = some v) : UMap.subscript m key d = (v, m) := by
  simp [UMap.subscript, h]

theorem umap_subscript_absent {V : Type} (m : UMap V) (key : Int) (d : V)
    (h : UMap.find m key = none) : UMap.subscript m key d = (d, m ++ [(key, d)]) := by
  simp [UMap.subscript, h]

/-! ## The operations, case by case -/

theorem ensureNode_found (s : LRUKReplacer) (f : Int) (node : LRUKNode)
    (h : UMap.find s.node_store_ f = some node) : ensureNode s f = s.node_store_ := by
  simp [ensureNode, h]

theorem ensureNode_absent (s : LRUKReplacer) (f : Int)
    (h : UMap.find s.node_store_ f = none) :
    ensureNode s f = s.node_store_ ++ [(f, LRUKNode.ofK s.k_)] := by
  have hk := (umap_find_none_iff _ _).mp h
  simp only [ensureNode, h, umap_subscript_absent _ _ _ h]
  rw [umap_modify_append _ _ _ _ hk]
  rfl

theorem recordAccess_found (s : LRUKReplacer) (f : Int) (ts : Nat) (node : LRUKNode)
    (hv : invalidFrame s f = false) (h : UMap.find s.node_store_ f = some node) :
    RecordAccess s f ts =
      (.returned (),
        { s with node_store_ := UMap.modify s.node_store_ f (fun n => n.Append ts) }) := by
  simp only [RecordAccess, hv, ensureNode_found s f node h, umap_subscript_found _ _ _ _ h]
  rfl

theorem recordAccess_absent (s : LRUKReplacer) (f : Int) (ts : Nat)
    (hv : invalidFrame s f = false) (h : UMap.find s.node_store_ f = none) :
    RecordAccess s f ts =
      (.returned (),
        { s with node_store_ := s.node_store_ ++ [(f, (LRUKNode.ofK s.k_).Append ts)] }) := by
  have hk := (umap_find_none_iff _ _).mp h
  have h2 := umap_find_append s.node_store_ f (LRUKNode.ofK s.k_) h
  simp only [RecordAccess, hv, ensureNode_absent s f h, umap_subscript_found _ _ _ _ h2]
  rw [umap_modify_append _ _ _ _ hk]
  rfl

theorem setEvictable_found (s : LRUKReplacer) (f : Int) (b : Bool) (node : LRUKNode)
    (hv : invalidFrame s f = false) (h : UMap.find s.node_store_ f = some node) :
    SetEvictable s f b =
      if node.is_evictable_ = true ∧ b = false then
        (.returned (),
          { s with
            node_store_ := UMap.modify s.node_store_ f (fun n => n.SetIsEvictable false)
            curr_size_ := (s.curr_size_ + 2 ^ 64 - 1) % 2 ^ 64 })
      else if node.is_evictable_ = false ∧ b = true then
        (.returned (),
          { s with
            node_store_ := UMap.modify s.node_store_ f (fun n => n.SetIsEvictable true)
            curr_size_ := (s.curr_size_ + 1) % 2 ^ 64 })
      else (.returned (), s) := by
  simp only [SetEvictable, hv, ensureNode_found s f node h, umap_subscript_found _ _ _ _ h,
    LRUKNode.IsEvictable]
  cases hn : node.is_evictable_ <;> cases b <;> simp

theorem setEvictable_absent (s : LRUKReplacer) (f : Int) (b : Bool)
    (hv : invalidFrame s f = false) (h : UMap.find s.node_store_ f = none) :
    SetEvictable s f b =
      if b = true then
        (.returned (),
          { s with
            node_store_ := s.node_store_ ++ [(f, (LRUKNode.ofK s.k_).SetIsEvictable true)]
            curr_size_ := (s.curr_size_ + 1) % 2 ^ 64 })
      else (.returned (), { s with node_store_ := s.node_store_ ++ [(f, LRUKNode.ofK s.k_)] }) := by
  have hk := (umap_find_none_iff _ _).mp h
  have h2 := umap_find_append s.node_store_ f (LRUKNode.ofK s.k_) h
  simp only [SetEvictable, hv, ensureNode_absent s f h, umap_subscript_found _ _ _ _ h2,
    LRUKNode.IsEvictable]
  cases b
  · simp [LRUKNode.ofK]
  · simp [LRUKNode.ofK, umap_modify_append _ _ _ _ hk]

theorem remove_invalid (s : LRUKReplacer) (f : Int) (hv : invalidFrame s f = true) :
    Remove s f = (.thrown ⟨"invalid frame_id"⟩, s) := by
  simp [Remove, hv]

theorem remove_absent (s : LRUKReplacer) (f : Int)
    (hv : invalidFrame s f = false) (h : UMap.find s.node_store_ f = none) :
    Remove s f = (.thrown ⟨"invalid frame idaaa"⟩, s) := by
  simp [Remove, hv, h]

theorem remove_pinned (s : LRUKReplacer) (f : Int) (node : LRUKNode)
    (hv : invalidFrame s f = false) (h : UMap.find s.node_store_ f = some node)
    (he : node.is_evictable_ = false) :
    Remove s f = (.thrown ⟨"invalid frame id bbb"⟩, s) := by
  simp [Remove, hv, h, umap_subscript_found _ _ _ _ h, LRUKNode.IsEvictable, he]

theorem remove_evictable (s : LRUKReplacer) (f : Int) (node : LRUKNode)
    (hv : invalidFrame s f = false) (h : UMap.find s.node_store_ f = some node)
    (he : node.is_evictable_ = true) :
    Remove s f =
      (.returned (),
        { s with
          node_store_ := UMap.erase s.node_store_ f
          curr_size_ := (s.curr_size_ + 2 ^ 64 - 1) % 2 ^ 64 }) := by
  simp [Remove, hv, h, umap_subscript_found _ _ _ _ h, LRUKNode.IsEvictable, he]

/-! ## Counting evictable entries -/

theorem evCount_append (m : UMap LRUKNode) (f : Int) (n : LRUKNode) :
    evCount (m ++ [(f, n)]) = evCount m + (if n.is_evictable_ = true then 1 else 0) := by
  cases h : n.is_evictable_ <;> simp [evCount, List.filter_append, h]

theorem evCount_le_length (m : UMap LRUKNode) : evCount m ≤ m.length := by
  simpa [evCount] using List.length_filter_le _ m

theorem evCount_perm (m1 m2 : UMap LRUKNode) (h : m1.Perm m2) : evCount m1 = evCount m2 := by
  simpa [evCount] using (h.filter _).length_eq

theorem evCount_modify (m : UMap LRUKNode) (key : Int) (f : LRUKNode → LRUKNode)
    (node : LRUKNode) (hnd : (m.map Prod.fst).Nodup) (h : UMap.find m key = some node) :
    evCount (UMap.modify m key f) + (if node.is_evictable_ = true then 1 else 0) =
      evCount m + (if (f node).is_evictable_ = true then 1 else 0) := by
  induction m with
  | nil => simp [UMap.find] at h
  | cons p rest ih =>
    obtain ⟨k, w⟩ := p
    simp only [List.map_cons, List.nodup_cons] at hnd
    by_cases hk : k = key
    · subst hk
      simp only [UMap.find, if_true, Option.some.injEq] at h
      subst h
      have hrest : UMap.modify rest k f = rest := umap_modify_absent rest k f hnd.1
      have hcons : UMap.modify ((k, w) :: rest) k f = (k, f w) :: rest := by
        simp only [UMap.modify, List.map_cons, if_true] at hrest ⊢
        rw [hrest]
      rw [hcons]
      cases h1 : w.is_evictable_ <;> cases h2 : (f w).is_evictable_ <;>
        simp [evCount, List.filter_cons, h1, h2]
    · simp only [UMap.find, hk, if_false] at h
      have := ih hnd.2 h
      have hcons : UMap.modify ((k, w) :: rest) key f = (k, w) :: UMap.modify rest key f := by
        simp [UMap.modify, hk]
      rw [hcons]
      cases h1 : w.is_evictable_ <;> simp [evCount, List.filter_cons, h1] at this ⊢ <;> omega

theorem evCount_erase (m : UMap LRUKNode) (key : Int) (node : LRUKNode)
    (hnd : (m.map Prod.fst).Nodup) (h : UMap.find m key = some node) :
    evCount (UMap.erase m key) + (if node.is_evictable_ = true then 1 else 0) = evCount m := by
  induction m with
  | nil => simp [UMap.find] at h
  | cons p rest ih =>
    obtain ⟨k, w⟩ := p
    simp only [List.map_cons, List.nodup_cons] at hnd
    by_cases hk : k = key
    · subst hk
      simp only [UMap.find, if_true, Option.some.injEq] at h
      subst h
      have hrest : UMap.erase rest k = rest := by
        simp only [UMap.erase, List.filter_eq_self]
        intro q hq
        have : q.1 ≠ k := fun e => hnd.1 (e ▸ List.mem_map_of_mem Prod.fst hq)
        simpa using this
      have hcons : UMap.erase ((k, w) :: rest) k = rest := by
        simp only [UMap.erase, List.filter_cons] at hrest ⊢
        simpa using hrest
      rw [hcons]
      cases h1 : w.is_evictable_ <;> simp [evCount, List.filter_cons, h1]
    · simp only [UMap.find, hk, if_false] at h
      have := ih hnd.2 h
      have hcons : UMap.erase ((k, w) :: rest) key = (k, w) :: UMap.erase rest key := by
        simp [UMap.erase, List.filter_cons, hk]
      rw [hcons]
      cases h1 : w.is_evictable_ <;> simp [evCount, List.filter_cons, h1] at this ⊢ <;> omega

theorem length_le_of_range (m : UMap LRUKNode) (n : Nat) (hnd : (m.map Prod.fst).Nodup)
    (hr : ∀ p ∈ m, 0 ≤ p.1 ∧ p.1.toNat < n) : m.length ≤ n := by
  have h1 : ((m.map Prod.fst).map Int.toNat).Nodup := by
    apply List.Nodup.map_on _ hnd
    intro a ha b hb hab
    simp only [List.mem_map] at ha hb
    obtain ⟨p, hp, rfl⟩ := ha
    obtain ⟨q, hq, rfl⟩ := hb
    have := (hr p hp).1
    have := (hr q hq).1
    omega
  have h2 : ((m.map Prod.fst).map Int.toNat).toFinset ⊆ Finset.range n := by
    intro a ha
    simp only [List.mem_toFinset, List.mem_map] at ha
    obtain ⟨b, ⟨p, hp, rfl⟩, rfl⟩ := ha
    exact Finset.mem_range.mpr (hr p hp).2
  have h3 := Finset.card_le_card h2
  rw [List.toFinset_card_of_nodup h1] at h3
  simpa using h3

/-! ## The invariant is kept by every operation -/

theorem umap_forall_modify {V : Type} (m : UMap V) (key : Int) (f : V → V)
    (P : Int × V → Prop) (h : ∀ p ∈ m, P p) (hf : ∀ v, (key, v) ∈ m → P (key, f v)) :
    ∀ p ∈ UMap.modify m key f, P p := by
  intro p hp
  rcases umap_mem_modify m key f p hp with h1 | ⟨h1, v, hv, h2⟩
  · exact h p h1.1
  · have : p = (key, f v) := Prod.ext h1 h2
    rw [this]
    exact hf v hv

theorem append_k (n : LRUKNode) (ts : Nat) : (n.Append ts).k_ = n.k_ := by
  simp only [LRUKNode.Append]
  split <;> rfl

theorem append_flag (n : LRUKNode) (ts : Nat) :
    (n.Append ts).is_evictable_ = n.is_evictable_ := by
  simp only [LRUKNode.Append]
  split <;> rfl

theorem append_length_le (n : LRUKNode) (ts : Nat) (h : n.history_.length ≤ n.k_) :
    (n.Append ts).history_.length ≤ n.k_ := by
  simp only [LRUKNode.Append]
  split
  · simp only [List.length_tail, List.length_append, List.length_singleton]
    omega
  · rename_i h1
    simp only [List.length_append, List.length_singleton] at h1 ⊢
    omega

theorem append_mem (n : LRUKNode) (ts t : Nat) (h : t ∈ (n.Append ts).history_) :
    t ∈ n.history_ ∨ t = ts := by
  simp only [LRUKNode.Append] at h
  split at h
  · have := List.mem_of_mem_tail h
    simpa using this
  · simpa using h

theorem valid_range (s : LRUKReplacer) (f : Int) (hv : invalidFrame s f = false) :
    0 ≤ f ∧ f.toNat < s.replacer_size_ := by
  simp only [invalidFrame, Bool.or_eq_false_iff, decide_eq_false_iff_not] at hv
  omega

theorem inv_new (n k : Nat) (hn : n < 2 ^ 64) : Inv n k (New n k) :=
  { frames_lt := hn, cap := rfl, kk := rfl, nodup := by simp [New],
    range := by simp [New], node_k := by simp [New], len := by simp [New],
    stamps := by simp [New], count := by simp [New, evCount] }

theorem inv_rehash (n k : Nat) (s : LRUKReplacer) (order : UMap LRUKNode)
    (h : Inv n k s) (hp : order.Perm s.node_store_) :
    Inv n k { s with node_store_ := order } :=
  { frames_lt := h.frames_lt, cap := h.cap, kk := h.kk,
    nodup := (hp.map Prod.fst).nodup_iff.mpr h.nodup,
    range := fun p hq => h.range p (hp.mem_iff.mp hq),
    node_k := fun p hq => h.node_k p (hp.mem_iff.mp hq),
    len := fun p hq => h.len p (hp.mem_iff.mp hq),
    stamps := fun p hq => h.stamps p (hp.mem_iff.mp hq),
    count := by rw [h.count]; exact (evCount_perm _ _ hp).symm }

theorem inv_recordAccess (n k : Nat) (s : LRUKReplacer) (f : Int) (ts : Nat)
    (h : Inv n k s) (hts : ts < SIZE_MAX) : Inv n k (RecordAccess s f ts).2 := by
  cases hv : invalidFrame s f with
  | true => simpa [RecordAccess, hv] using h
  | false =>
    have hr := valid_range s f hv
    rw [h.cap] at hr
    cases hfind : UMap.find s.node_store_ f with
    | some node =>
      rw [recordAccess_found s f ts node hv hfind]
      exact
        { frames_lt := h.frames_lt, cap := h.cap, kk := h.kk,
          nodup := by simpa [umap_keys_modify] using h.nodup,
          range := umap_forall_modify s.node_store_ f (fun n => n.Append ts) (fun p : Int × LRUKNode => 0 ≤ p.1 ∧ p.1.toNat < n) h.range
            (fun v hm => h.range (f, v) hm),
          node_k := umap_forall_modify s.node_store_ f (fun n => n.Append ts) (fun p : Int × LRUKNode => p.2.k_ = k) h.node_k
            (fun v hm => by
              have := h.node_k _ hm
              simpa [append_k] using this),
          len := umap_forall_modify s.node_store_ f (fun n => n.Append ts) (fun p : Int × LRUKNode => p.2.history_.length ≤ k) h.len
            (fun v hm => by
              have h1 := h.node_k _ hm
              have h2 := h.len _ hm
              simp only at h1 h2 ⊢
              rw [← h1] at h2 ⊢
              exact append_length_le v ts h2),
          stamps := umap_forall_modify s.node_store_ f (fun n => n.Append ts) (fun p : Int × LRUKNode => ∀ t ∈ p.2.history_, t < SIZE_MAX) h.stamps
            (fun v hm t ht => by
              rcases append_mem v ts t ht with h1 | h1
              · exact h.stamps _ hm t h1
              · rw [h1]; exact hts),
          count := by
            have := evCount_modify s.node_store_ f (fun n => n.Append ts) node h.nodup hfind
            simp only [append_flag] at this
            simp only [h.count]
            omega }
    | none =>
      rw [recordAccess_absent s f ts hv hfind]
      have hk := (umap_find_none_iff _ _).mp hfind
      have hnew : ∀ p ∈ s.node_store_ ++ [(f, (LRUKNode.ofK s.k_).Append ts)],
          p ∈ s.node_store_ ∨ p = (f, (LRUKNode.ofK s.k_).Append ts) := by
        intro p hp
        simpa using hp
      exact
        { frames_lt := h.frames_lt, cap := h.cap, kk := h.kk,
          nodup := by
            simp only [List.map_append, List.map_cons, List.map_nil]
            exact List.Nodup.append h.nodup (List.nodup_singleton f)
              (by
                intro a ha hb
                rw [List.mem_singleton] at hb
                exact hk (hb ▸ ha)),
          range := fun p hp => by
            rcases hnew p hp with h1 | h1
            · exact h.range p h1
            · rw [h1]; exact hr,
          node_k := fun p hp => by
            rcases hnew p hp with h1 | h1
            · exact h.node_k p h1
            · rw [h1]; simp [append_k, LRUKNode.ofK, h.kk],
          len := fun p hp => by
            rcases hnew p hp with h1 | h1
            · exact h.len p h1
            · rw [h1]
              have := append_length_le (LRUKNode.ofK s.k_) ts (by simp [LRUKNode.ofK])
              simpa [LRUKNode.ofK, h.kk] using this,
          stamps := fun p hp t ht => by
            rcases hnew p hp with h1 | h1
            · exact h.stamps p h1 t ht
            · rw [h1] at ht
              rcases append_mem _ ts t ht with h2 | h2
              · simp [LRUKNode.ofK] at h2
              · rw [h2]; exact hts,
          count := by
            simp only [evCount_append, append_flag, LRUKNode.ofK, h.count]
            simp }

theorem evCount_le_frames (n k : Nat) (s : LRUKReplacer) (h : Inv n k s) :
    evCount s.node_store_ ≤ s.node_store_.length ∧ s.node_store_.length ≤ n ∧ n < 2 ^ 64 :=
  ⟨evCount_le_length _, length_le_of_range _ n h.nodup h.range, h.frames_lt⟩

theorem inv_with_modify (n k : Nat) (s : LRUKReplacer) (f : Int) (g : LRUKNode → LRUKNode)
    (c : Nat) (h : Inv n k s) (hk : ∀ v, (g v).k_ = v.k_)
    (hh : ∀ v, (g v).history_ = v.history_)
    (hc : c = evCount (UMap.modify s.node_store_ f g)) :
    Inv n k { s with node_store_ := UMap.modify s.node_store_ f g, curr_size_ := c } :=
  { frames_lt := h.frames_lt, cap := h.cap, kk := h.kk,
    nodup := by simpa [umap_keys_modify] using h.nodup,
    range := umap_forall_modify s.node_store_ f g
      (fun p : Int × LRUKNode => 0 ≤ p.1 ∧ p.1.toNat < n) h.range (fun v hm => h.range (f, v) hm),
    node_k := umap_forall_modify s.node_store_ f g
      (fun p : Int × LRUKNode => p.2.k_ = k) h.node_k
      (fun v hm => by simpa [hk] using h.node_k (f, v) hm),
    len := umap_forall_modify s.node_store_ f g
      (fun p : Int × LRUKNode => p.2.history_.length ≤ k) h.len
      (fun v hm => by simpa [hh] using h.len (f, v) hm),
    stamps := umap_forall_modify s.node_store_ f g
      (fun p : Int × LRUKNode => ∀ t ∈ p.2.history_, t < SIZE_MAX) h.stamps
      (fun v hm => by simpa [hh] using h.stamps (f, v) hm),
    count := hc }

theorem inv_with_append (n k : Nat) (s : LRUKReplacer) (f : Int) (node : LRUKNode)
    (c : Nat) (h : Inv n k s) (hv : invalidFrame s f = false)
    (hfind : UMap.find s.node_store_ f = none) (hk : node.k_ = k) (hh : node.history_ = [])
    (hc : c = evCount (s.node_store_ ++ [(f, node)])) :
    Inv n k { s with node_store_ := s.node_store_ ++ [(f, node)], curr_size_ := c } := by
  have hr := valid_range s f hv
  rw [h.cap] at hr
  have hkey := (umap_find_none_iff _ _).mp hfind
  have hnew : ∀ p ∈ s.node_store_ ++ [(f, node)], p ∈ s.node_store_ ∨ p = (f, node) := by
    intro p hp
    simpa using hp
  exact
    { frames_lt := h.frames_lt, cap := h.cap, kk := h.kk,
      nodup := by
        simp only [List.map_append, List.map_cons, List.map_nil]
        exact List.Nodup.append h.nodup (List.nodup_singleton f)
          (by
            intro a ha hb
            rw [List.mem_singleton] at hb
            exact hkey (hb ▸ ha)),
      range := fun p hp => by
        rcases hnew p hp with h1 | h1
        · exact h.range p h1
        · rw [h1]; exact hr,
      node_k := fun p hp => by
        rcases hnew p hp with h1 | h1
        · exact h.node_k p h1
        · rw [h1]; exact hk,
      len := fun p hp => by
        rcases hnew p hp with h1 | h1
        · exact h.len p h1
        · rw [h1]; simp [hh],
      stamps := fun p hp t ht => by
        rcases hnew p hp with h1 | h1
        · exact h.stamps p h1 t ht
        · rw [h1] at ht
          simp [hh] at ht,
      count := hc }

theorem inv_with_erase (n k : Nat) (s : LRUKReplacer) (f : Int) (c : Nat) (h : Inv n k s)
    (hc : c = evCount (UMap.erase s.node_store_ f)) :
    Inv n k { s with node_store_ := UMap.erase s.node_store_ f, curr_size_ := c } :=
  { frames_lt := h.frames_lt, cap := h.cap, kk := h.kk,
    nodup := (List.filter_sublist s.node_store_).map Prod.fst |>.nodup h.nodup,
    range := fun p hp => h.range p ((umap_mem_erase _ _ _).mp hp).1,
    node_k := fun p hp => h.node_k p ((umap_mem_erase _ _ _).mp hp).1,
    len := fun p hp => h.len p ((umap_mem_erase _ _ _).mp hp).1,
    stamps := fun p hp => h.stamps p ((umap_mem_erase _ _ _).mp hp).1,
    count := hc }

theorem inv_setEvictable (n k : Nat) (s : LRUKReplacer) (f : Int) (b : Bool)
    (h : Inv n k s) : Inv n k (SetEvictable s f b).2 := by
  cases hv : invalidFrame s f with
  | true => simpa [SetEvictable, hv] using h
  | false =>
    have hb := evCount_le_frames n k s h
    cases hfind : UMap.find s.node_store_ f with
    | some node =>
      rw [setEvictable_found s f b node hv hfind]
      split
      · rename_i hc
        have h1 := evCount_modify s.node_store_ f (fun n => n.SetIsEvictable false) node
          h.nodup hfind
        simp only [hc.1, if_true] at h1
        refine inv_with_modify n k s f (fun n => n.SetIsEvictable false) _ h (fun v => rfl)
          (fun v => rfl) ?_
        rw [h.count]
        simp only [LRUKNode.SetIsEvictable] at h1 ⊢
        simp at h1
        omega
      · split
        · rename_i hc
          have h1 := evCount_modify s.node_store_ f (fun n => n.SetIsEvictable true) node
            h.nodup hfind
          have h2 := evCount_le_length (UMap.modify s.node_store_ f (fun n => n.SetIsEvictable true))
          have h3 : (UMap.modify s.node_store_ f (fun n => n.SetIsEvictable true)).length =
              s.node_store_.length := by simp [UMap.modify]
          simp only [hc.1, LRUKNode.SetIsEvictable] at h1
          refine inv_with_modify n k s f (fun n => n.SetIsEvictable true) _ h (fun v => rfl)
            (fun v => rfl) ?_
          rw [h.count]
          simp only [LRUKNode.SetIsEvictable] at h2 h3 ⊢
          simp at h1
          omega
        · exact h
    | none =>
      rw [setEvictable_absent s f b hv hfind]
      split
      · have h0 := inv_with_append n k s f ((LRUKNode.ofK s.k_).SetIsEvictable true)
          (evCount (s.node_store_ ++ [(f, (LRUKNode.ofK s.k_).SetIsEvictable true)]))
          h hv hfind (by simp [LRUKNode.SetIsEvictable, LRUKNode.ofK, h.kk])
          (by simp [LRUKNode.SetIsEvictable, LRUKNode.ofK]) rfl
        have hb2 := evCount_le_frames n k _ h0
        refine inv_with_append n k s f ((LRUKNode.ofK s.k_).SetIsEvictable true) _ h hv hfind
          (by simp [LRUKNode.SetIsEvictable, LRUKNode.ofK, h.kk])
          (by simp [LRUKNode.SetIsEvictable, LRUKNode.ofK]) ?_
        simp only [evCount_append] at hb2 ⊢
        simp only [LRUKNode.SetIsEvictable, if_true] at hb2 ⊢
        rw [h.count]
        omega
      · refine inv_with_append n k s f (LRUKNode.ofK s.k_) _ h hv hfind
          (by simp [LRUKNode.ofK, h.kk]) (by simp [LRUKNode.ofK]) ?_
        simp only [evCount_append, LRUKNode.ofK]
        simp [h.count]

theorem inv_remove (n k : Nat) (s : LRUKReplacer) (f : Int) (h : Inv n k s) :
    Inv n k (Remove s f).2 := by
  cases hv : invalidFrame s f with
  | true => rw [remove_invalid s f hv]; exact h
  | false =>
    cases hfind : UMap.find s.node_store_ f with
    | none => rw [remove_absent s f hv hfind]; exact h
    | some node =>
      cases he : node.is_evictable_ with
      | false => rw [remove_pinned s f node hv hfind he]; exact h
      | true =>
        rw [remove_evictable s f node hv hfind he]
        have hb := evCount_le_frames n k s h
        have h1 := evCount_erase s.node_store_ f node h.nodup hfind
        simp only [he, if_true] at h1
        refine inv_with_erase n k s f _ h ?_
        rw [h.count]
        omega

theorem inv_evict (n k : Nat) (s : LRUKReplacer) (h : Inv n k s) : Inv n k (Evict s).2 := by
  unfold Evict
  split
  · exact h
  · split
    · exact h
    · exact h
    · simp only
      split
      · exact h
      · rename_i frame_id _
        have hr := inv_remove n k s frame_id h
        split <;> rename_i heq <;> rw [heq] at hr <;> exact hr

theorem reachable_inv (n k : Nat) (s : LRUKReplacer) (h : Reachable n k s) : Inv n k s := by
  induction h with
  | new hn _ => exact inv_new n k hn
  | recordAccess s f ts _ hts ih => exact inv_recordAccess n k s f ts ih hts
  | setEvictable s f b _ ih => exact inv_setEvictable n k s f b ih
  | remove s f _ ih => exact inv_remove n k s f ih
  | evict s _ ih => exact inv_evict n k s ih
  | rehash s order _ hp ih => exact inv_rehash n k s order ih hp

/-! ## The two loops of `Evict` -/

theorem umap_mem_set (m : UMap Nat) (key : Int) (val : Nat) (p : Int × Nat) :
    p ∈ UMap.set m key val ↔ p = (key, val) ∨ (p ∈ m ∧ p.1 ≠ key) := by
  cases hfind : UMap.find m key with
  | none =>
    have hk := (umap_find_none_iff _ _).mp hfind
    simp only [UMap.set, umap_subscript_absent _ _ _ hfind, umap_modify_append _ _ _ _ hk,
      List.mem_append, List.mem_singleton]
    constructor
    · rintro (h | h)
      · right
        refine ⟨h, fun e => hk ?_⟩
        rw [← e]
        exact List.mem_map_of_mem Prod.fst h
      · exact Or.inl h
    · rintro (h | h)
      · exact Or.inr h
      · exact Or.inl h.1
  | some v =>
    have hm := umap_find_mem m key v hfind
    simp only [UMap.set, umap_subscript_found _ _ _ _ hfind]
    constructor
    · intro h
      rcases umap_mem_modify m key (fun _ => val) p h with h1 | ⟨h1, w, _, h2⟩
      · exact Or.inr h1
      · exact Or.inl (Prod.ext h1 h2)
    · rintro (h | h)
      · simp only [UMap.modify, List.mem_map]
        exact ⟨(key, v), hm, by simp [h]⟩
      · simp only [UMap.modify, List.mem_map]
        exact ⟨p, h.1, by simp [h.2]⟩

theorem getLastest_total (node : LRUKNode) :
    ∃ v, node.GetLastest = .returned v ∧ (v ∈ node.history_ ∨ v = 0) := by
  cases hg : node.history_.getLast? with
  | none => exact ⟨0, by simp [LRUKNode.GetLastest, hg], Or.inr rfl⟩
  | some v =>
    exact ⟨v, by simp [LRUKNode.GetLastest, hg], Or.inl (List.mem_of_getLast?_eq_some hg)⟩

theorem scanStep_cases (acc : Scan) (p : Int × LRUKNode) :
    (p.2.is_evictable_ = false ∧ scanStep acc p = .returned acc) ∨
    (p.2.is_evictable_ = true ∧ p.2.history_.length < p.2.k_ ∧
      ∃ v, p.2.GetLastest = .returned v ∧
        scanStep acc p =
          .returned { acc with has_less_k := true, less := UMap.set acc.less p.1 v }) ∨
    (p.2.is_evictable_ = true ∧ ¬ p.2.history_.length < p.2.k_ ∧
      ∃ v, p.2.history_.head? = some v ∧
        scanStep acc p =
          .returned (if acc.has_less_k = true then acc
            else { acc with k := UMap.set acc.k p.1 v })) ∨
    (p.2.is_evictable_ = true ∧ ¬ p.2.history_.length < p.2.k_ ∧ p.2.history_ = [] ∧
      scanStep acc p = .undefined) := by
  cases he : p.2.is_evictable_ with
  | false => left; simp [scanStep, LRUKNode.IsEvictable, he]
  | true =>
    right
    by_cases hl : p.2.history_.length < p.2.k_
    · obtain ⟨v, hv, _⟩ := getLastest_total p.2
      left
      refine ⟨rfl, hl, v, hv, ?_⟩
      simp [scanStep, LRUKNode.IsEvictable, he, LRUKNode.GetKDistance, hl, hv]
    · cases hg : p.2.history_.head? with
      | none =>
        right; right
        refine ⟨rfl, hl, List.head?_eq_none_iff.mp hg, ?_⟩
        simp [scanStep, LRUKNode.IsEvictable, he, LRUKNode.GetKDistance, hl, hg]
      | some v =>
        right; left
        refine ⟨rfl, hl, v, rfl, ?_⟩
        cases hf : acc.has_less_k <;>
          simp [scanStep, LRUKNode.IsEvictable, he, LRUKNode.GetKDistance, hl, hg, hf]

theorem scan_cons_returned (p : Int × LRUKNode) (rest : UMap LRUKNode) (acc sc : Scan)
    (h : scan (p :: rest) acc = .returned sc) :
    ∃ acc1, scanStep acc p = .returned acc1 ∧ scan rest acc1 = .returned sc := by
  simp only [scan] at h
  split at h
  · rename_i acc1 heq
    exact ⟨acc1, heq, h⟩
  · simp at h
  · simp at h

theorem pickMin_spec (x : UMap Nat) (acc : Option Int × Nat) :
    (pickMin x acc).2 ≤ acc.2 ∧ (∀ q ∈ x, (pickMin x acc).2 ≤ q.2) ∧
      (pickMin x acc = acc ∨ ∃ q ∈ x, pickMin x acc = (some q.1, q.2)) := by
  induction x generalizing acc with
  | nil => simp [pickMin]
  | cons p rest ih =>
    simp only [pickMin]
    split
    · rename_i hlt
      obtain ⟨h1, h2, h3⟩ := ih (some p.1, p.2)
      refine ⟨by simp only at h1; omega, ?_, ?_⟩
      · intro q hq
        rcases List.mem_cons.mp hq with rfl | hq
        · exact h1
        · exact h2 q hq
      · right
        rcases h3 with h3 | ⟨q, hq, h3⟩
        · exact ⟨p, List.mem_cons_self _ _, h3⟩
        · exact ⟨q, List.mem_cons_of_mem _ hq, h3⟩
    · rename_i hlt
      obtain ⟨h1, h2, h3⟩ := ih acc
      refine ⟨h1, ?_, ?_⟩
      · intro q hq
        rcases List.mem_cons.mp hq with rfl | hq
        · omega
        · exact h2 q hq
      · rcases h3 with h3 | ⟨q, hq, h3⟩
        · exact Or.inl h3
        · exact Or.inr ⟨q, List.mem_cons_of_mem _ hq, h3⟩

theorem scan_flag (m : UMap LRUKNode) (acc sc : Scan) (h : scan m acc = .returned sc) :
    sc.has_less_k = true ↔
      acc.has_less_k = true ∨
        ∃ p ∈ m, p.2.is_evictable_ = true ∧ p.2.history_.length < p.2.k_ := by
  induction m generalizing acc with
  | nil =>
    simp only [scan, Outcome.returned.injEq] at h
    simp [h]
  | cons p rest ih =>
    obtain ⟨acc1, hstep, hrest⟩ := scan_cons_returned p rest acc sc h
    rw [ih acc1 hrest]
    rcases scanStep_cases acc p with ⟨he, hs⟩ | ⟨he, hl, v, _, hs⟩ | ⟨he, hl, v, _, hs⟩ |
      ⟨_, _, _, hs⟩
    · rw [hs] at hstep
      cases hstep
      simp [he]
    · rw [hs] at hstep
      cases hstep
      simp [he, hl]
    · rw [hs] at hstep
      cases hstep
      split <;> simp_all
    · rw [hs] at hstep
      cases hstep

theorem scan_less_sound (m : UMap LRUKNode) (acc sc : Scan) (h : scan m acc = .returned sc)
    (q : Int × Nat) (hq : q ∈ sc.less) :
    q ∈ acc.less ∨
      ∃ p ∈ m, p.1 = q.1 ∧ p.2.is_evictable_ = true ∧ p.2.history_.length < p.2.k_ ∧
        p.2.GetLastest = .returned q.2 := by
  induction m generalizing acc with
  | nil =>
    simp only [scan, Outcome.returned.injEq] at h
    left
    rw [h]
    exact hq
  | cons p rest ih =>
    obtain ⟨acc1, hstep, hrest⟩ := scan_cons_returned p rest acc sc h
    have hlater : (∃ p1 ∈ rest, p1.1 = q.1 ∧ p1.2.is_evictable_ = true ∧
        p1.2.history_.length < p1.2.k_ ∧ p1.2.GetLastest = .returned q.2) →
        ∃ p1 ∈ p :: rest, p1.1 = q.1 ∧ p1.2.is_evictable_ = true ∧
          p1.2.history_.length < p1.2.k_ ∧ p1.2.GetLastest = .returned q.2 := by
      rintro ⟨p1, hp1, hrest1⟩
      exact ⟨p1, List.mem_cons_of_mem _ hp1, hrest1⟩
    rcases ih acc1 hrest with h1 | h1
    · rcases scanStep_cases acc p with ⟨he, hs⟩ | ⟨he, hl, v, hv, hs⟩ | ⟨he, hl, v, _, hs⟩ |
        ⟨_, _, _, hs⟩
      · rw [hs] at hstep
        cases hstep
        exact Or.inl h1
      · rw [hs] at hstep
        cases hstep
        rcases (umap_mem_set _ _ _ _).mp h1 with h2 | h2
        · right
          refine ⟨p, List.mem_cons_self _ _, ?_, he, hl, ?_⟩
          · rw [h2]
          · rw [h2]; exact hv
        · exact Or.inl h2.1
      · rw [hs] at hstep
        cases hstep
        left
        split at h1 <;> exact h1
      · rw [hs] at hstep
        cases hstep
    · exact Or.inr (hlater h1)

theorem scan_k_sound (m : UMap LRUKNode) (acc sc : Scan) (h : scan m acc = .returned sc)
    (q : Int × Nat) (hq : q ∈ sc.k) :
    q ∈ acc.k ∨
      ∃ p ∈ m, p.1 = q.1 ∧ p.2.is_evictable_ = true ∧ ¬ p.2.history_.length < p.2.k_ ∧
        p.2.history_.head? = some q.2 := by
  induction m generalizing acc with
  | nil =>
    simp only [scan, Outcome.returned.injEq] at h
    left
    rw [h]
    exact hq
  | cons p rest ih =>
    obtain ⟨acc1, hstep, hrest⟩ := scan_cons_returned p rest acc sc h
    have hlater : (∃ p1 ∈ rest, p1.1 = q.1 ∧ p1.2.is_evictable_ = true ∧
        ¬ p1.2.history_.length < p1.2.k_ ∧ p1.2.history_.head? = some q.2) →
        ∃ p1 ∈ p :: rest, p1.1 = q.1 ∧ p1.2.is_evictable_ = true ∧
          ¬ p1.2.history_.length < p1.2.k_ ∧ p1.2.history_.head? = some q.2 := by
      rintro ⟨p1, hp1, hrest1⟩
      exact ⟨p1, List.mem_cons_of_mem _ hp1, hrest1⟩
    rcases ih acc1 hrest with h1 | h1
    · rcases scanStep_cases acc p with ⟨he, hs⟩ | ⟨he, hl, v, hv, hs⟩ | ⟨he, hl, v, hv, hs⟩ |
        ⟨_, _, _, hs⟩
      · rw [hs] at hstep
        cases hstep
        exact Or.inl h1
      · rw [hs] at hstep
        cases hstep
        exact Or.inl h1
      · rw [hs] at hstep
        cases hstep
        split at h1
        · exact Or.inl h1
        · rcases (umap_mem_set _ _ _ _).mp h1 with h2 | h2
          · right
            refine ⟨p, List.mem_cons_self _ _, ?_, he, hl, ?_⟩
            · rw [h2]
            · rw [h2]; exact hv
          · exact Or.inl h2.1
      · rw [hs] at hstep
        cases hstep
    · exact Or.inr (hlater h1)

theorem scan_less_complete (m : UMap LRUKNode) (acc sc : Scan)
    (hnd : (m.map Prod.fst).Nodup) (h : scan m acc = .returned sc) :
    (∀ q ∈ acc.less, q.1 ∉ m.map Prod.fst → q ∈ sc.less) ∧
      (∀ p ∈ m, p.2.is_evictable_ = true → p.2.history_.length < p.2.k_ →
        ∀ v, p.2.GetLastest = .returned v → (p.1, v) ∈ sc.less) := by
  induction m generalizing acc with
  | nil =>
    simp only [scan, Outcome.returned.injEq] at h
    subst h
    simp
  | cons p rest ih =>
    obtain ⟨acc1, hstep, hrest⟩ := scan_cons_returned p rest acc sc h
    simp only [List.map_cons, List.nodup_cons] at hnd
    obtain ⟨ih1, ih2⟩ := ih acc1 hnd.2 hrest
    constructor
    · intro q hq hk
      simp only [List.map_cons, List.mem_cons, not_or] at hk
      apply ih1 q _ hk.2
      rcases scanStep_cases acc p with ⟨_, hs⟩ | ⟨_, _, v, _, hs⟩ | ⟨_, _, v, _, hs⟩ | ⟨_, _, _, hs⟩
      · rw [hs] at hstep
        cases hstep
        exact hq
      · rw [hs] at hstep
        cases hstep
        exact (umap_mem_set _ _ _ _).mpr (Or.inr ⟨hq, hk.1⟩)
      · rw [hs] at hstep
        cases hstep
        split <;> exact hq
      · rw [hs] at hstep
        cases hstep
    · intro p1 hp1 he hl v hv
      rcases List.mem_cons.mp hp1 with rfl | hp1
      · apply ih1 _ _ hnd.1
        rcases scanStep_cases acc p1 with ⟨he1, _⟩ | ⟨_, _, w, hw, hs⟩ | ⟨_, hl1, _⟩ |
          ⟨_, hl1, _, _⟩
        · rw [he] at he1
          cases he1
        · rw [hs] at hstep
          cases hstep
          rw [hv] at hw
          cases hw
          exact (umap_mem_set _ _ _ _).mpr (Or.inl rfl)
        · exact absurd hl hl1
        · exact absurd hl hl1
      · exact ih2 p1 hp1 he hl v hv

theorem scan_k_complete (m : UMap LRUKNode) (acc sc : Scan)
    (hnd : (m.map Prod.fst).Nodup) (h : scan m acc = .returned sc)
    (hflag : sc.has_less_k = false) :
    (∀ q ∈ acc.k, q.1 ∉ m.map Prod.fst → q ∈ sc.k) ∧
      (∀ p ∈ m, p.2.is_evictable_ = true → ¬ p.2.history_.length < p.2.k_ →
        ∀ v, p.2.history_.head? = some v → (p.1, v) ∈ sc.k) := by
  induction m generalizing acc with
  | nil =>
    simp only [scan, Outcome.returned.injEq] at h
    subst h
    simp
  | cons p rest ih =>
    obtain ⟨acc1, hstep, hrest⟩ := scan_cons_returned p rest acc sc h
    simp only [List.map_cons, List.nodup_cons] at hnd
    obtain ⟨ih1, ih2⟩ := ih acc1 hnd.2 hrest
    have hacc : acc.has_less_k = false := by
      cases hf : acc.has_less_k with
      | false => rfl
      | true =>
        have := (scan_flag _ acc sc h).mpr (Or.inl hf)
        rw [hflag] at this
        cases this
    have hacc1 : acc1.has_less_k = false := by
      cases hf : acc1.has_less_k with
      | false => rfl
      | true =>
        have := (scan_flag _ acc1 sc hrest).mpr (Or.inl hf)
        rw [hflag] at this
        cases this
    constructor
    · intro q hq hk
      simp only [List.map_cons, List.mem_cons, not_or] at hk
      apply ih1 q _ hk.2
      rcases scanStep_cases acc p with ⟨_, hs⟩ | ⟨_, _, v, _, hs⟩ | ⟨_, _, v, _, hs⟩ | ⟨_, _, _, hs⟩
      · rw [hs] at hstep
        cases hstep
        exact hq
      · rw [hs] at hstep
        cases hstep
        exact hq
      · rw [hs] at hstep
        cases hstep
        simp only [hacc, Bool.false_eq_true, if_false]
        exact (umap_mem_set _ _ _ _).mpr (Or.inr ⟨hq, hk.1⟩)
      · rw [hs] at hstep
        cases hstep
    · intro p1 hp1 he hl v hv
      rcases List.mem_cons.mp hp1 with rfl | hp1
      · apply ih1 _ _ hnd.1
        rcases scanStep_cases acc p1 with ⟨he1, _⟩ | ⟨_, hl1, _⟩ | ⟨_, _, w, hw, hs⟩ |
          ⟨_, _, hnil, _⟩
        · rw [he] at he1
          cases he1
        · exact absurd hl1 hl
        · rw [hs] at hstep
          cases hstep
          rw [hv] at hw
          cases hw
          simp only [hacc, Bool.false_eq_true, if_false]
          exact (umap_mem_set _ _ _ _).mpr (Or.inl rfl)
        · rw [hnil] at hv
          simp at hv
      · exact ih2 p1 hp1 he hl v hv

theorem scan_defined (m : UMap LRUKNode) (acc : Scan)
    (h : ∀ p ∈ m, p.2.is_evictable_ = true → ¬ p.2.history_.length < p.2.k_ →
      p.2.history_ ≠ []) :
    ∃ sc, scan m acc = .returned sc := by
  induction m generalizing acc with
  | nil => exact ⟨acc, rfl⟩
  | cons p rest ih =>
    have hrest : ∀ p1 ∈ rest, p1.2.is_evictable_ = true → ¬ p1.2.history_.length < p1.2.k_ →
        p1.2.history_ ≠ [] :=
      fun p1 hp1 => h p1 (List.mem_cons_of_mem _ hp1)
    rcases scanStep_cases acc p with ⟨_, hs⟩ | ⟨_, _, v, _, hs⟩ | ⟨_, _, v, _, hs⟩ |
      ⟨he, hl4, hnil, _⟩
    · simp only [scan, hs]
      exact ih _ hrest
    · simp only [scan, hs]
      exact ih _ hrest
    · simp only [scan, hs]
      exact ih _ hrest
    · exact absurd hnil (h p (List.mem_cons_self _ _) he hl4)

/-! ## `Evict` as a whole -/

theorem valid_of_range (s : LRUKReplacer) (f : Int) (h0 : 0 ≤ f)
    (h1 : f.toNat < s.replacer_size_) : invalidFrame s f = false := by
  simp only [invalidFrame, Bool.or_eq_false_iff, decide_eq_false_iff_not]
  omega

theorem evict_of_parts (s : LRUKReplacer) (sc : Scan) (F : Int) (node : LRUKNode)
    (h0 : s.curr_size_ ≠ 0) (hscan : scan s.node_store_ scanInit = .returned sc)
    (hpick : (pickMin (candidates sc) (none, SIZE_MAX)).1 = some F)
    (hv : invalidFrame s F = false) (hfind : UMap.find s.node_store_ F = some node)
    (he : node.is_evictable_ = true) :
    Evict s = (.returned (some F), erased s F) := by
  simp only [scanInit] at hscan
  simp only [candidates] at hpick
  simp only [Evict, h0, if_false, hscan, hpick, remove_evictable s F node hv hfind he]
  rfl

theorem evict_returned_some (s : LRUKReplacer) (B : Int)
    (h : (Evict s).1 = .returned (some B)) :
    ∃ sc, scan s.node_store_ scanInit = .returned sc ∧
      (pickMin (candidates sc) (none, SIZE_MAX)).1 = some B := by
  unfold Evict at h
  split at h
  · simp at h
  · split at h
    · simp at h
    · simp at h
    · rename_i sc hsc
      refine ⟨sc, hsc, ?_⟩
      simp only at h
      split at h
      · simp at h
      · rename_i frame_id hpick
        have hB : frame_id = B := by
          split at h <;> simp at h
          exact h
        simp only [candidates]
        rw [← hB]
        exact hpick

theorem pick_mem (x : UMap Nat) (F : Int)
    (h : (pickMin x (none, SIZE_MAX)).1 = some F) :
    ∃ v, (F, v) ∈ x ∧ ∀ q ∈ x, v ≤ q.2 := by
  obtain ⟨_, h2, h3⟩ := pickMin_spec x (none, SIZE_MAX)
  rcases h3 with h3 | ⟨q, hq, h3⟩
  · rw [h3] at h
    simp at h
  · rw [h3] at h h2
    simp only [Option.some.injEq] at h
    refine ⟨q.2, ?_, h2⟩
    rw [← h]
    exact hq

theorem pick_some (x : UMap Nat) (q : Int × Nat) (hq : q ∈ x) (hlt : q.2 < SIZE_MAX) :
    ∃ F, (pickMin x (none, SIZE_MAX)).1 = some F := by
  obtain ⟨_, h2, h3⟩ := pickMin_spec x (none, SIZE_MAX)
  rcases h3 with h3 | ⟨q1, _, h3⟩
  · have := h2 q hq
    rw [h3] at this
    simp only at this
    omega
  · exact ⟨q1.1, by rw [h3]⟩

theorem head_mem_history (l : List Nat) (v : Nat) (h : l.head? = some v) : v ∈ l := by
  cases l with
  | nil => simp at h
  | cons a rest =>
    simp only [List.head?_cons, Option.some.injEq] at h
    simp [h]

theorem last_mem_history (l : List Nat) (v : Nat) (h : l.getLast? = some v) : v ∈ l :=
  List.mem_of_getLast?_eq_some h

theorem head_of_nonempty (l : List Nat) (h : l ≠ []) : ∃ v, l.head? = some v := by
  cases l with
  | nil => exact absurd rfl h
  | cons a rest => exact ⟨a, rfl⟩

theorem last_of_nonempty (l : List Nat) (h : l ≠ []) : ∃ v, l.getLast? = some v := by
  cases hl : l.getLast? with
  | none => exact absurd (List.getLast?_eq_none_iff.mp hl) h
  | some v => exact ⟨v, rfl⟩

theorem candidates_sound (m : UMap LRUKNode) (sc : Scan)
    (hscan : scan m scanInit = .returned sc) (q : Int × Nat) (hq : q ∈ candidates sc) :
    ∃ p ∈ m, p.1 = q.1 ∧ p.2.is_evictable_ = true ∧ (q.2 ∈ p.2.history_ ∨ q.2 = 0) := by
  simp only [candidates] at hq
  split at hq
  · rcases scan_less_sound m scanInit sc hscan q hq with h1 | ⟨p, hp, h1, h2, _, h4⟩
    · simp [scanInit] at h1
    · obtain ⟨v, hv, hmem⟩ := getLastest_total p.2
      rw [h4] at hv
      cases hv
      exact ⟨p, hp, h1, h2, hmem⟩
  · rcases scan_k_sound m scanInit sc hscan q hq with h1 | ⟨p, hp, h1, h2, _, h4⟩
    · simp [scanInit] at h1
    · exact ⟨p, hp, h1, h2, Or.inl (head_mem_history _ _ h4)⟩

theorem scan_full_nonempty (m : UMap LRUKNode) (acc sc : Scan)
    (h : scan m acc = .returned sc) :
    ∀ p ∈ m, p.2.is_evictable_ = true → ¬ p.2.history_.length < p.2.k_ →
      p.2.history_ ≠ [] := by
  induction m generalizing acc with
  | nil => simp
  | cons p rest ih =>
    obtain ⟨acc1, hstep, hrest⟩ := scan_cons_returned p rest acc sc h
    intro p1 hp1 he hl
    rcases List.mem_cons.mp hp1 with rfl | hp1
    · rcases scanStep_cases acc p1 with ⟨he1, _⟩ | ⟨_, hl1, _⟩ | ⟨_, _, w, hw, _⟩ |
        ⟨_, _, _, hs⟩
      · rw [he] at he1
        cases he1
      · exact absurd hl1 hl
      · intro hnil
        rw [hnil] at hw
        simp at hw
      · rw [hs] at hstep
        cases hstep
    · exact ih acc1 hrest p1 hp1 he hl

theorem candidates_nonempty (m : UMap LRUKNode) (sc : Scan)
    (hnd : (m.map Prod.fst).Nodup) (hscan : scan m scanInit = .returned sc)
    (hsome : ∃ a ∈ m, a.2.is_evictable_ = true) :
    ∃ q ∈ candidates sc, q.2 ∈ (m.map (fun p => p.2.history_)).flatten ∨ q.2 = 0 := by
  have hin : ∀ p ∈ m, ∀ v ∈ p.2.history_, v ∈ (m.map (fun p => p.2.history_)).flatten := by
    intro p hp v hv
    simp only [List.mem_flatten, List.mem_map]
    exact ⟨p.2.history_, ⟨p, hp, rfl⟩, hv⟩
  cases hf : sc.has_less_k with
  | true =>
    rcases (scan_flag m scanInit sc hscan).mp hf with h1 | ⟨p, hp, he, hl⟩
    · simp [scanInit] at h1
    · obtain ⟨v, hv, hmem⟩ := getLastest_total p.2
      refine ⟨(p.1, v), ?_, ?_⟩
      · simp only [candidates, hf, if_true]
        exact (scan_less_complete m scanInit sc hnd hscan).2 p hp he hl v hv
      · rcases hmem with hmem | hmem
        · exact Or.inl (hin p hp v hmem)
        · exact Or.inr hmem
  | false =>
    obtain ⟨a, ha, he⟩ := hsome
    have hl : ¬ a.2.history_.length < a.2.k_ := by
      intro hl
      have := (scan_flag m scanInit sc hscan).mpr (Or.inr ⟨a, ha, he, hl⟩)
      rw [hf] at this
      cases this
    obtain ⟨v, hv⟩ := head_of_nonempty _ (scan_full_nonempty m scanInit sc hscan a ha he hl)
    refine ⟨(a.1, v), ?_, Or.inl (hin a ha v (head_mem_history _ _ hv))⟩
    simp only [candidates, hf, Bool.false_eq_true, if_false]
    exact (scan_k_complete m scanInit sc hnd hscan hf).2 a ha he hl v hv

theorem evict_core (n k : Nat) (s : LRUKReplacer) (h : Inv n k s)
    (hsome : ∃ a ∈ s.node_store_, a.2.is_evictable_ = true)
    (hfull : ∀ p ∈ s.node_store_, p.2.is_evictable_ = true →
      ¬ p.2.history_.length < p.2.k_ → p.2.history_ ≠ []) :
    ∃ sc F v node, scan s.node_store_ scanInit = .returned sc ∧
      (F, v) ∈ candidates sc ∧ (∀ q ∈ candidates sc, v ≤ q.2) ∧
      UMap.find s.node_store_ F = some node ∧ node.is_evictable_ = true ∧
      Evict s = (.returned (some F), erased s F) := by
  obtain ⟨sc, hscan⟩ := scan_defined s.node_store_ scanInit hfull
  obtain ⟨q, hq, hqm⟩ := candidates_nonempty s.node_store_ sc h.nodup hscan hsome
  have hlt : q.2 < SIZE_MAX := by
    rcases hqm with hqm | hqm
    · simp only [List.mem_flatten, List.mem_map] at hqm
      obtain ⟨l, ⟨p, hp, rfl⟩, hv⟩ := hqm
      exact h.stamps p hp _ hv
    · rw [hqm]
      decide
  obtain ⟨F, hF⟩ := pick_some (candidates sc) q hq hlt
  obtain ⟨v, hv, hmin⟩ := pick_mem (candidates sc) F hF
  obtain ⟨p, hp, hp1, hp2, _⟩ := candidates_sound s.node_store_ sc hscan (F, v) hv
  simp only at hp1
  have hfind : UMap.find s.node_store_ F = some p.2 := by
    apply umap_mem_find _ h.nodup
    rw [← hp1]
    exact hp
  have hr := h.range p hp
  rw [hp1, ← h.cap] at hr
  have hvalid := valid_of_range s F hr.1 hr.2
  have hcount : s.curr_size_ ≠ 0 := by
    rw [h.count]
    obtain ⟨a, ha, he⟩ := hsome
    have : a ∈ s.node_store_.filter (fun p => p.2.is_evictable_) :=
      List.mem_filter.mpr ⟨ha, he⟩
    have := List.length_pos_of_mem this
    simp only [evCount]
    omega
  exact ⟨sc, F, v, p.2, hscan, hv, hmin, hfind, hp2,
    evict_of_parts s sc F p.2 hcount hscan hF hvalid hfind hp2⟩

theorem reachable_runCalls (n k : Nat) (calls : List Call) (s : LRUKReplacer)
    (h : Reachable n k s) (hok : ∀ c ∈ calls, c.stampOk = true) :
    Reachable n k (runCalls s calls) := by
  induction calls generalizing s with
  | nil => exact h
  | cons c rest ih =>
    have hrest : ∀ c1 ∈ rest, c1.stampOk = true := fun c1 hc1 => hok c1 (List.mem_cons_of_mem _ hc1)
    have hc := hok c (List.mem_cons_self _ _)
    apply ih _ _ hrest
    cases c with
    | recordAccess f ts =>
      exact Reachable.recordAccess s f ts h (by simpa [Call.stampOk] using hc)
    | setEvictable f b => exact Reachable.setEvictable s f b h
    | remove f => exact Reachable.remove s f h
    | evict => exact Reachable.evict s h

theorem reachable_unrecordedState : Reachable 5 2 unrecordedState :=
  reachable_runCalls 5 2 _ _ (Reachable.new (by decide) (by decide)) (by decide)

theorem reachable_fullHistoryState : Reachable 5 2 fullHistoryState :=
  reachable_runCalls 5 2 _ _ (Reachable.new (by decide) (by decide)) (by decide)

theorem reachable_singleAccessState : Reachable 5 2 singleAccessState :=
  reachable_runCalls 5 2 _ _ (Reachable.new (by decide) (by decide)) (by decide)

theorem reachable_interleavedState : Reachable 5 3 interleavedState :=
  reachable_runCalls 5 3 _ _ (Reachable.new (by decide) (by decide)) (by decide)

theorem reachable_mixedState : Reachable 5 2 mixedState :=
  reachable_runCalls 5 2 _ _ (Reachable.new (by decide) (by decide)) (by decide)

theorem reachable_pinnedState : Reachable 5 2 pinnedState :=
  reachable_runCalls 5 2 _ _ (Reachable.new (by decide) (by decide)) (by decide)

/-! ## The claims -/

/-- C1 (the code departs from the claim): `Remove` of a frame that is in range and
not in the table does not return.  After `New(5, 2)`, the call `Remove(0)` throws
the exception with the message "invalid frame idaaa"; the table and `curr_size_`
are as before the call.  The comment on `Remove` asks for a plain return. -/
theorem remove_untracked_throws :
    UMap.find (New 5 2).node_store_ 0 = none ∧ invalidFrame (New 5 2) 0 = false ∧
      Remove (New 5 2) 0 = (.thrown ⟨"invalid frame idaaa"⟩, New 5 2) := by
  refine ⟨rfl, rfl, rfl⟩

/-- C2: in every state reachable from `New(num_frames, k)` by `RecordAccess`,
`SetEvictable`, `Remove` and `Evict` calls, whether they return or throw, `Size()`
is the number of table entries whose evictable flag is set.  The counter, which
wraps modulo `2 ^ 64` in the code, therefore never wrapped below zero, and it is
at most the number of table entries. -/
theorem size_counts_evictable (num_frames k : Nat) (s : LRUKReplacer)
    (h : Reachable num_frames k s) :
    Size s = evictableCount s ∧ Size s ≤ s.node_store_.length ∧ Size s < 2 ^ 64 := by
  have hinv := reachable_inv num_frames k s h
  have hb := evCount_le_frames num_frames k s hinv
  have hc : Size s = evCount s.node_store_ := hinv.count
  refine ⟨hc, ?_, ?_⟩ <;> omega

/-- Witness of C2: the replacer with frames 0 (two accesses) and 1 (one access),
both evictable. -/
theorem size_counts_evictable_witness :
    Reachable 5 2 mixedState ∧
      (Size mixedState = evictableCount mixedState ∧
        Size mixedState ≤ mixedState.node_store_.length ∧ Size mixedState < 2 ^ 64) :=
  ⟨reachable_mixedState, size_counts_evictable 5 2 mixedState reachable_mixedState⟩

/-- C3: for every state and every `frame_id` that is negative or at least the
capacity, `RecordAccess`, `SetEvictable` and `Remove` each throw `InvalidFrame`
and leave the whole state, the table and `curr_size_` included, as it was. -/
theorem invalid_frame_rejected (s : LRUKReplacer) (frame_id : Int) (ts : Nat) (v : Bool)
    (h : frame_id < 0 ∨ (s.replacer_size_ : Int) ≤ frame_id) :
    RecordAccess s frame_id ts = (.thrown InvalidFrame, s) ∧
      SetEvictable s frame_id v = (.thrown InvalidFrame, s) ∧
      Remove s frame_id = (.thrown InvalidFrame, s) := by
  have hv : invalidFrame s frame_id = true := by
    simp only [invalidFrame, Bool.or_eq_true, decide_eq_true_eq]
    omega
  refine ⟨?_, ?_, ?_⟩
  · simp [RecordAccess, hv, InvalidFrame]
  · simp [SetEvictable, hv, InvalidFrame]
  · exact remove_invalid s frame_id hv

/-- Witness of C3: frame 5 on a replacer of capacity 5 that tracks two frames. -/
theorem invalid_frame_rejected_witness :
    ((5 : Int) < 0 ∨ (mixedState.replacer_size_ : Int) ≤ 5) ∧
      (RecordAccess mixedState 5 9 = (.thrown InvalidFrame, mixedState) ∧
        SetEvictable mixedState 5 true = (.thrown InvalidFrame, mixedState) ∧
        Remove mixedState 5 = (.thrown InvalidFrame, mixedState)) :=
  ⟨Or.inr (by decide), invalid_frame_rejected mixedState 5 9 true (Or.inr (by decide))⟩

/-- C4: in every reachable state in which some evictable frame has fewer than `k`
timestamps, a frame that `Evict()` returns is an evictable frame of the table with
fewer than `k` timestamps; a frame with `k` of them is never returned. -/
theorem evict_prefers_short_history (num_frames k : Nat) (s : LRUKReplacer)
    (h : Reachable num_frames k s)
    (hA : ∃ a ∈ s.node_store_, a.2.is_evictable_ = true ∧ a.2.history_.length < k)
    (B : Int) (hB : (Evict s).1 = .returned (some B)) :
    ∃ node, UMap.find s.node_store_ B = some node ∧ node.is_evictable_ = true ∧
      node.history_.length < k := by
  have hinv := reachable_inv num_frames k s h
  obtain ⟨sc, hscan, hpick⟩ := evict_returned_some s B hB
  obtain ⟨v, hv, _⟩ := pick_mem (candidates sc) B hpick
  have hflag : sc.has_less_k = true := by
    obtain ⟨a, ha, he, hl⟩ := hA
    refine (scan_flag _ scanInit sc hscan).mpr (Or.inr ⟨a, ha, he, ?_⟩)
    rw [hinv.node_k a ha]
    exact hl
  simp only [candidates, hflag, if_true] at hv
  rcases scan_less_sound _ scanInit sc hscan (B, v) hv with h1 | ⟨p, hp, h1, h2, h3, _⟩
  · simp [scanInit] at h1
  · simp only at h1
    refine ⟨p.2, ?_, h2, ?_⟩
    · apply umap_mem_find _ hinv.nodup
      rw [← h1]
      exact hp
    · rw [hinv.node_k p hp] at h3
      exact h3

/-- Witness of C4: frame 0 has two timestamps, frame 1 one (`k = 2`); the victim is frame 1. -/
theorem evict_prefers_short_history_witness :
    Reachable 5 2 mixedState ∧
      (∃ a ∈ mixedState.node_store_, a.2.is_evictable_ = true ∧ a.2.history_.length < 2) ∧
      (Evict mixedState).1 = .returned (some 1) ∧
      ∃ node, UMap.find mixedState.node_store_ 1 = some node ∧ node.is_evictable_ = true ∧
        node.history_.length < 2 :=
  ⟨reachable_mixedState, ⟨(1, ⟨[3], 2, true⟩), by decide, rfl, by decide⟩, rfl,
    evict_prefers_short_history 5 2 mixedState reachable_mixedState
      ⟨(1, ⟨[3], 2, true⟩), by decide, rfl, by decide⟩ 1 rfl⟩

/-- C5: in every reachable state (of a replacer built with `k ≥ 1`, as `New`
requires) that has an evictable frame and in which every evictable frame has `k`
timestamps, `Evict()` returns an evictable frame `F` of the table and erases it;
the oldest timestamp kept for `F`, its `k`-th most recent access, is at most that of
every evictable frame.  In the scenario of the spec (`k = 2`, frame 1 accessed at
1, 2 and frame 2 at 3, 4, both evictable) the victim is frame 1, in either
iteration order of the table. -/
theorem evict_full_history_order (num_frames k : Nat) (s : LRUKReplacer) (hk : 1 ≤ k)
    (h : Reachable num_frames k s)
    (hsome : ∃ a ∈ s.node_store_, a.2.is_evictable_ = true)
    (hall : ∀ a ∈ s.node_store_, a.2.is_evictable_ = true → k ≤ a.2.history_.length) :
    (∃ F node key, Evict s = (.returned (some F), erased s F) ∧
        UMap.find s.node_store_ F = some node ∧ node.is_evictable_ = true ∧
        node.history_.length = k ∧ node.GetKDistance = .returned (some key) ∧
        node.history_.head? = some key ∧
        ∀ a ∈ s.node_store_, a.2.is_evictable_ = true →
          ∃ other, a.2.history_.head? = some other ∧ key ≤ other) ∧
      (Evict fullHistoryState).1 = .returned (some 1) ∧
      (Evict { fullHistoryState with
        node_store_ := fullHistoryState.node_store_.reverse }).1 = .returned (some 1) := by
  refine ⟨?_, rfl, rfl⟩
  have hinv := reachable_inv num_frames k s h
  have hdef : ∀ p ∈ s.node_store_, p.2.is_evictable_ = true → p.2.history_ ≠ [] := by
    intro p hp he hnil
    have := hall p hp he
    rw [hnil] at this
    simp at this
    omega
  have hfull : ∀ p ∈ s.node_store_, p.2.is_evictable_ = true →
      ¬ p.2.history_.length < p.2.k_ := by
    intro p hp he
    rw [hinv.node_k p hp]
    have := hall p hp he
    omega
  obtain ⟨sc, F, v, node, hscan, hv, hmin, hfind, he, hev⟩ :=
    evict_core num_frames k s hinv hsome (fun p hp he _ => hdef p hp he)
  have hflag : sc.has_less_k = false := by
    cases hf : sc.has_less_k with
    | false => rfl
    | true =>
      rcases (scan_flag _ scanInit sc hscan).mp hf with h1 | ⟨p, hp, he1, hl⟩
      · simp [scanInit] at h1
      · exact absurd hl (hfull p hp he1)
  simp only [candidates, hflag, Bool.false_eq_true, if_false] at hv hmin
  rcases scan_k_sound _ scanInit sc hscan (F, v) hv with h1 | ⟨p, hp, h1, _, _, h4⟩
  · simp [scanInit] at h1
  · simp only at h1 h4
    have hnode : node = p.2 := by
      have := umap_mem_find _ hinv.nodup F p.2 (by rw [← h1]; exact hp)
      rw [hfind] at this
      exact Option.some.inj this
    have hlen : node.history_.length = k := by
      have h5 := hinv.len p hp
      have h6 := hall p hp (by rw [← hnode]; exact he)
      rw [hnode]
      omega
    have hnk : node.k_ = k := by rw [hnode]; exact hinv.node_k p hp
    refine ⟨F, node, v, hev, hfind, he, hlen, ?_, by rw [hnode]; exact h4, ?_⟩
    · have h7 : node.history_.head? = some v := by rw [hnode]; exact h4
      simp [LRUKNode.GetKDistance, hlen, hnk, h7]
    · intro a ha hea
      obtain ⟨w, hw⟩ := head_of_nonempty _ (hdef a ha hea)
      refine ⟨w, hw, ?_⟩
      exact hmin (a.1, w)
        ((scan_k_complete _ scanInit sc hinv.nodup hscan hflag).2 a ha hea (hfull a ha hea) w hw)

/-- Witness of C5: the scenario of the spec. -/
theorem evict_full_history_order_witness :
    Reachable 5 2 fullHistoryState ∧
      ((∃ F node key, Evict fullHistoryState = (.returned (some F), erased fullHistoryState F) ∧
          UMap.find fullHistoryState.node_store_ F = some node ∧ node.is_evictable_ = true ∧
          node.history_.length = 2 ∧ node.GetKDistance = .returned (some key) ∧
          node.history_.head? = some key ∧
          ∀ a ∈ fullHistoryState.node_store_, a.2.is_evictable_ = true →
            ∃ other, a.2.history_.head? = some other ∧ key ≤ other) ∧
        (Evict fullHistoryState).1 = .returned (some 1) ∧
        (Evict { fullHistoryState with
          node_store_ := fullHistoryState.node_store_.reverse }).1 = .returned (some 1)) :=
  ⟨reachable_fullHistoryState,
    evict_full_history_order 5 2 fullHistoryState (by decide) reachable_fullHistoryState
      ⟨(1, ⟨[1, 2], 2, true⟩), by decide, rfl⟩ (by decide)⟩

/-- C6: in every reachable state in which at least one evictable frame has fewer
than `k` timestamps, `Evict()` returns and erases an evictable frame `F` with fewer
than `k` timestamps whose most recent timestamp is at most the most recent
timestamp of every evictable frame with fewer than `k` timestamps.  The most recent
timestamp is the one `GetLastest` reads: the last one kept, and 0 for a frame that
has none.  With `k = 2` and frames 0, 1, 2 accessed once at 1, 2, 3, all evictable,
the victim is frame 0, also when the table is iterated in the opposite order. -/
theorem evict_short_history_order (num_frames k : Nat) (s : LRUKReplacer)
    (h : Reachable num_frames k s)
    (hA : ∃ a ∈ s.node_store_, a.2.is_evictable_ = true ∧ a.2.history_.length < k) :
    (∃ F node latest, Evict s = (.returned (some F), erased s F) ∧
        UMap.find s.node_store_ F = some node ∧ node.is_evictable_ = true ∧
        node.history_.length < k ∧ node.GetLastest = .returned latest ∧
        (∀ t, node.history_.getLast? = some t → latest = t) ∧
        ∀ a ∈ s.node_store_, a.2.is_evictable_ = true → a.2.history_.length < k →
          ∃ other, a.2.GetLastest = .returned other ∧
            (∀ t, a.2.history_.getLast? = some t → other = t) ∧ latest ≤ other) ∧
      (Evict singleAccessState).1 = .returned (some 0) ∧
      (Evict { singleAccessState with
        node_store_ := singleAccessState.node_store_.reverse }).1 = .returned (some 0) := by
  refine ⟨?_, rfl, rfl⟩
  have hinv := reachable_inv num_frames k s h
  have hfull : ∀ p ∈ s.node_store_, p.2.is_evictable_ = true →
      ¬ p.2.history_.length < p.2.k_ → p.2.history_ ≠ [] := by
    intro p hp _ hl hnil
    rw [hinv.node_k p hp, hnil] at hl
    obtain ⟨a, _, _, hla⟩ := hA
    simp at hl
    omega
  obtain ⟨a, ha, hea, hla⟩ := hA
  obtain ⟨sc, F, v, node, hscan, hv, hmin, hfind, he, hev⟩ :=
    evict_core num_frames k s hinv ⟨a, ha, hea⟩ hfull
  have hflag : sc.has_less_k = true := by
    refine (scan_flag _ scanInit sc hscan).mpr (Or.inr ⟨a, ha, hea, ?_⟩)
    rw [hinv.node_k a ha]
    exact hla
  simp only [candidates, hflag, if_true] at hv hmin
  rcases scan_less_sound _ scanInit sc hscan (F, v) hv with h1 | ⟨p, hp, h1, _, h3, h4⟩
  · simp [scanInit] at h1
  · simp only at h1 h4
    have hnode : node = p.2 := by
      have := umap_mem_find _ hinv.nodup F p.2 (by rw [← h1]; exact hp)
      rw [hfind] at this
      exact Option.some.inj this
    rw [hinv.node_k p hp] at h3
    refine ⟨F, node, v, hev, hfind, he, by rw [hnode]; exact h3, by rw [hnode]; exact h4,
      ?_, ?_⟩
    · intro t ht
      rw [hnode] at ht
      simp only [LRUKNode.GetLastest, ht, Outcome.returned.injEq] at h4
      exact h4.symm
    · intro b hb heb hlb
      obtain ⟨w, hw, _⟩ := getLastest_total b.2
      refine ⟨w, hw, ?_, ?_⟩
      · intro t ht
        simp only [LRUKNode.GetLastest, ht, Outcome.returned.injEq] at hw
        exact hw.symm
      · have hlb2 : b.2.history_.length < b.2.k_ := by
          rw [hinv.node_k b hb]
          exact hlb
        exact hmin (b.1, w)
          ((scan_less_complete _ scanInit sc hinv.nodup hscan).2 b hb heb hlb2 w hw)

/-- Witness of C6: the scenario of the spec. -/
theorem evict_short_history_order_witness :
    Reachable 5 2 singleAccessState ∧
      ((∃ F node latest,
          Evict singleAccessState = (.returned (some F), erased singleAccessState F) ∧
          UMap.find singleAccessState.node_store_ F = some node ∧ node.is_evictable_ = true ∧
          node.history_.length < 2 ∧ node.GetLastest = .returned latest ∧
          (∀ t, node.history_.getLast? = some t → latest = t) ∧
          ∀ a ∈ singleAccessState.node_store_, a.2.is_evictable_ = true →
            a.2.history_.length < 2 →
            ∃ other, a.2.GetLastest = .returned other ∧
              (∀ t, a.2.history_.getLast? = some t → other = t) ∧ latest ≤ other) ∧
        (Evict singleAccessState).1 = .returned (some 0) ∧
        (Evict { singleAccessState with
          node_store_ := singleAccessState.node_store_.reverse }).1 = .returned (some 0)) :=
  ⟨reachable_singleAccessState,
    evict_short_history_order 5 2 singleAccessState reachable_singleAccessState
      ⟨(0, ⟨[1], 2, true⟩), by decide, rfl, by decide⟩⟩

/-- C7 (the code departs from the claim): among evictable frames with fewer than `k`
timestamps `Evict()` compares the most recent timestamps, not the oldest ones.
With `k = 3`, frame 0 accessed at 1 and 4 and frame 1 at 2 and 3, both evictable,
the oldest timestamp of frame 0 (1) is further in the past than that of frame 1 (2),
and `Evict()` returns frame 1, in either iteration order of the table. -/
theorem evict_compares_latest_timestamp :
    Reachable 5 3 interleavedState ∧
      UMap.find interleavedState.node_store_ 0 = some ⟨[1, 4], 3, true⟩ ∧
      UMap.find interleavedState.node_store_ 1 = some ⟨[2, 3], 3, true⟩ ∧
      interleavedState.node_store_.length = 2 ∧
      (Evict interleavedState).1 = .returned (some 1) ∧
      (Evict { interleavedState with
        node_store_ := interleavedState.node_store_.reverse }).1 = .returned (some 1) :=
  ⟨reachable_interleavedState, rfl, rfl, rfl, rfl, rfl⟩

/-- C9: in every reachable state without an evictable frame (the table is empty or
all its frames are pinned) `Evict()` returns "none" without throwing and leaves the
whole state as it was; `Size()` is 0 before and after. -/
theorem evict_none_without_candidates (num_frames k : Nat) (s : LRUKReplacer)
    (h : Reachable num_frames k s)
    (hno : ∀ p ∈ s.node_store_, p.2.is_evictable_ = false) :
    Evict s = (.returned none, s) ∧ Size s = 0 ∧ Size (Evict s).2 = 0 := by
  have hinv := reachable_inv num_frames k s h
  have h0 : s.curr_size_ = 0 := by
    rw [hinv.count]
    simp only [evCount, List.length_eq_zero, List.filter_eq_nil_iff]
    intro p hp
    simp [hno p hp]
  have hev : Evict s = (.returned none, s) := by simp [Evict, h0]
  refine ⟨hev, h0, ?_⟩
  rw [hev]
  exact h0

/-- Witness of C9: frame 3 is tracked and pinned. -/
theorem evict_none_without_candidates_witness :
    Reachable 5 2 pinnedState ∧
      (∀ p ∈ pinnedState.node_store_, p.2.is_evictable_ = false) ∧
      (Evict pinnedState = (.returned none, pinnedState) ∧ Size pinnedState = 0 ∧
        Size (Evict pinnedState).2 = 0) :=
  ⟨reachable_pinnedState, by decide,
    evict_none_without_candidates 5 2 pinnedState reachable_pinnedState (by decide)⟩

/-- C10: for every state and every frame in range that the table holds with its
flag unset, `Remove` throws `FrameNotEvictable`, which is not `InvalidFrame`, and
leaves the whole state, the table and `Size()` included, as it was. -/
theorem remove_pinned_rejected (s : LRUKReplacer) (frame_id : Int) (node : LRUKNode)
    (h0 : 0 ≤ frame_id) (h1 : frame_id < (s.replacer_size_ : Int))
    (hfind : UMap.find s.node_store_ frame_id = some node)
    (hpin : node.is_evictable_ = false) :
    Remove s frame_id = (.thrown FrameNotEvictable, s) ∧
      FrameNotEvictable ≠ InvalidFrame ∧ Size (Remove s frame_id).2 = Size s := by
  have hv : invalidFrame s frame_id = false := valid_of_range s frame_id h0 (by omega)
  have hr := remove_pinned s frame_id node hv hfind hpin
  refine ⟨hr, by decide, ?_⟩
  rw [hr]

/-- Witness of C10: `Remove(3)` where frame 3 is tracked and pinned. -/
theorem remove_pinned_rejected_witness :
    UMap.find pinnedState.node_store_ 3 = some ⟨[1], 2, false⟩ ∧
      (Remove pinnedState 3 = (.thrown FrameNotEvictable, pinnedState) ∧
        FrameNotEvictable ≠ InvalidFrame ∧ Size (Remove pinnedState 3).2 = Size pinnedState) :=
  ⟨rfl, remove_pinned_rejected pinnedState 3 ⟨[1], 2, false⟩ (by decide) (by decide) rfl rfl⟩

/-! ## What a lookup sees after each operation -/

theorem umap_modify_cons {V : Type} (k : Int) (v : V) (rest : UMap V) (key : Int)
    (f : V → V) :
    UMap.modify ((k, v) :: rest) key f =
      (if k = key then (k, f v) else (k, v)) :: UMap.modify rest key f := by
  simp [UMap.modify]

theorem umap_find_modify {V : Type} (m : UMap V) (key g : Int) (f : V → V) :
    UMap.find (UMap.modify m key f) g =
      if g = key then (UMap.find m key).map f else UMap.find m g := by
  induction m with
  | nil => simp [UMap.modify, UMap.find]
  | cons p rest ih =>
    obtain ⟨k, v⟩ := p
    rw [umap_modify_cons]
    by_cases hk : k = key
    · rw [if_pos hk]
      by_cases hg : g = key
      · have hkg : k = g := by rw [hk, hg]
        simp only [UMap.find, hkg, hg, if_true, Option.map_some']
      · have hkg : ¬ k = g := fun e => hg (e ▸ hk)
        simp only [UMap.find, hkg, if_false, hg]
        rw [ih]
        simp [hg]
    · rw [if_neg hk]
      by_cases hg : g = key
      · have hkg : ¬ k = g := fun e => hk (e.trans hg)
        subst hg
        simp only [UMap.find, hkg, if_false, if_true]
        rw [ih]
        simp
      · simp only [UMap.find, hg, if_false]
        rw [ih]
        simp [hg]

theorem umap_find_erase {V : Type} (m : UMap V) (key g : Int) :
    UMap.find (UMap.erase m key) g = if g = key then none else UMap.find m g := by
  induction m with
  | nil => simp [UMap.erase, UMap.find]
  | cons p rest ih =>
    obtain ⟨k, v⟩ := p
    simp only [UMap.erase] at ih ⊢
    by_cases hk : k = key
    · subst hk
      simp only [List.filter_cons, ne_eq, not_true_eq_false, decide_False, Bool.false_eq_true,
        if_false]
      rw [ih]
      by_cases hg : g = k
      · simp [hg]
      · have hg2 : ¬ k = g := fun e => hg e.symm
        simp [hg, hg2, UMap.find]
    · simp only [List.filter_cons, ne_eq, hk, not_false_eq_true, decide_True, if_true, UMap.find]
      rw [ih]
      by_cases hg : g = key
      · subst hg
        simp [hk]
      · simp [hg]

theorem umap_find_append_other {V : Type} (m : UMap V) (key g : Int) (v : V) (hg : g ≠ key) :
    UMap.find (m ++ [(key, v)]) g = UMap.find m g := by
  induction m with
  | nil =>
    have hg2 : ¬ key = g := fun e => hg e.symm
    simp [UMap.find, hg2]
  | cons p rest ih =>
    obtain ⟨k, w⟩ := p
    have hc : UMap.find ((k, w) :: rest ++ [(key, v)]) g =
        if k = g then some w else UMap.find (rest ++ [(key, v)]) g := rfl
    rw [hc, ih]
    rfl


theorem find_after_recordAccess (s : LRUKReplacer) (f g : Int) (ts : Nat)
    (hv : invalidFrame s f = false) :
    UMap.find (RecordAccess s f ts).2.node_store_ g =
      if g = f then some (((UMap.find s.node_store_ f).getD (LRUKNode.ofK s.k_)).Append ts)
      else UMap.find s.node_store_ g := by
  cases hfind : UMap.find s.node_store_ f with
  | some node =>
    rw [recordAccess_found s f ts node hv hfind]
    simp only [umap_find_modify, hfind, Option.map_some', Option.getD_some]
  | none =>
    rw [recordAccess_absent s f ts hv hfind]
    by_cases hg : g = f
    · subst hg
      simp only [umap_find_append _ _ _ hfind, if_true, Option.getD_none]
    · simp only [umap_find_append_other _ _ _ _ hg, hg, if_false]

theorem find_after_setEvictable (s : LRUKReplacer) (f g : Int) (b : Bool)
    (hv : invalidFrame s f = false) :
    UMap.find (SetEvictable s f b).2.node_store_ g =
      if g = f then
        some (((UMap.find s.node_store_ f).getD (LRUKNode.ofK s.k_)).SetIsEvictable b)
      else UMap.find s.node_store_ g := by
  cases hfind : UMap.find s.node_store_ f with
  | some node =>
    rw [setEvictable_found s f b node hv hfind]
    split
    · rename_i hc
      simp only [umap_find_modify, hfind, Option.map_some', Option.getD_some, hc.2]
    · split
      · rename_i hc
        simp only [umap_find_modify, hfind, Option.map_some', Option.getD_some, hc.2]
      · rename_i h1 h2
        by_cases hg : g = f
        · subst hg
          simp only [hfind, if_true, Option.getD_some, Option.some.injEq]
          cases hn : node.is_evictable_ <;> cases b <;>
            simp_all [LRUKNode.SetIsEvictable] <;> cases node <;> simp_all
        · simp only [hg, if_false]
  | none =>
    rw [setEvictable_absent s f b hv hfind]
    split
    · rename_i hb
      by_cases hg : g = f
      · subst hg
        simp only [umap_find_append _ _ _ hfind, if_true, Option.getD_none, hb]
      · simp only [umap_find_append_other _ _ _ _ hg, hg, if_false]
    · rename_i hb
      by_cases hg : g = f
      · subst hg
        have hb2 : b = false := by simpa using hb
        simp only [umap_find_append _ _ _ hfind, if_true, Option.getD_none, hb2]
        rfl
      · simp only [umap_find_append_other _ _ _ _ hg, hg, if_false]

theorem find_after_erased (s : LRUKReplacer) (f g : Int) :
    UMap.find (erased s f).node_store_ g = if g = f then none else UMap.find s.node_store_ g := by
  simp only [erased, umap_find_erase]

theorem length_erase_of_find (m : UMap LRUKNode) (key : Int) (node : LRUKNode)
    (hnd : (m.map Prod.fst).Nodup) (h : UMap.find m key = some node) :
    (UMap.erase m key).length + 1 = m.length := by
  induction m with
  | nil => simp [UMap.find] at h
  | cons p rest ih =>
    obtain ⟨k, w⟩ := p
    simp only [List.map_cons, List.nodup_cons] at hnd
    by_cases hk : k = key
    · subst hk
      have hrest : UMap.erase rest k = rest := by
        simp only [UMap.erase, List.filter_eq_self]
        intro q hq
        have : q.1 ≠ k := fun e => hnd.1 (e ▸ List.mem_map_of_mem Prod.fst hq)
        simpa using this
      have hcons : UMap.erase ((k, w) :: rest) k = rest := by
        simp only [UMap.erase, List.filter_cons] at hrest ⊢
        simpa using hrest
      rw [hcons]
      simp
    · simp only [UMap.find, hk, if_false] at h
      have := ih hnd.2 h
      have hcons : UMap.erase ((k, w) :: rest) key = (k, w) :: UMap.erase rest key := by
        simp [UMap.erase, List.filter_cons, hk]
      rw [hcons]
      simp only [List.length_cons]
      omega


theorem append_history (node : LRUKNode) (ts : Nat) (h : node.history_.length ≤ node.k_) :
    (node.Append ts).history_ =
      (node.history_ ++ [ts]).drop (node.history_.length + 1 - node.k_) := by
  simp only [LRUKNode.Append, List.length_append, List.length_singleton]
  split
  · have : node.history_.length + 1 - node.k_ = 1 := by omega
    rw [this]
    simp
  · have : node.history_.length + 1 - node.k_ = 0 := by omega
    rw [this]
    simp

theorem recordAccess_returns (s : LRUKReplacer) (f : Int) (ts : Nat)
    (hv : invalidFrame s f = false) : (RecordAccess s f ts).1 = .returned () := by
  simp [RecordAccess, hv]

theorem recordAccess_size (s : LRUKReplacer) (f : Int) (ts : Nat) :
    (RecordAccess s f ts).2.curr_size_ = s.curr_size_ := by
  simp only [RecordAccess]
  split <;> rfl

theorem recordAccess_evCount (s : LRUKReplacer) (f : Int) (ts : Nat)
    (hnd : (s.node_store_.map Prod.fst).Nodup) :
    evCount (RecordAccess s f ts).2.node_store_ = evCount s.node_store_ := by
  cases hv : invalidFrame s f with
  | true => simp [RecordAccess, hv]
  | false =>
    cases hfind : UMap.find s.node_store_ f with
    | some node =>
      rw [recordAccess_found s f ts node hv hfind]
      have := evCount_modify s.node_store_ f (fun n => n.Append ts) node hnd hfind
      simp only [append_flag] at this
      simp only
      omega
    | none =>
      rw [recordAccess_absent s f ts hv hfind]
      simp [evCount_append, append_flag, LRUKNode.ofK]


/-! ## The claims on `Remove`, `SetEvictable` and `RecordAccess` -/

/-- C11: in every state of the policy, `Remove` of a tracked, evictable frame (which
is then in range) returns; it erases the entry of that frame and no other, so the
table has one entry less and every other frame is looked up as before, and
`curr_size_`, like the number of evictable entries, goes down by exactly 1. -/
theorem remove_evictable_effect (num_frames k : Nat) (s : LRUKReplacer) (frame_id : Int)
    (node : LRUKNode) (h : Reachable num_frames k s)
    (hfind : UMap.find s.node_store_ frame_id = some node)
    (he : node.is_evictable_ = true) :
    (0 ≤ frame_id ∧ frame_id < (num_frames : Int)) ∧
      Remove s frame_id = (.returned (), erased s frame_id) ∧
      UMap.find (Remove s frame_id).2.node_store_ frame_id = none ∧
      (∀ g, g ≠ frame_id →
        UMap.find (Remove s frame_id).2.node_store_ g = UMap.find s.node_store_ g) ∧
      (Remove s frame_id).2.node_store_.length + 1 = s.node_store_.length ∧
      Size (Remove s frame_id).2 + 1 = Size s ∧
      evictableCount (Remove s frame_id).2 + 1 = evictableCount s := by
  have hinv := reachable_inv num_frames k s h
  have hmem := umap_find_mem _ _ _ hfind
  have hr := hinv.range _ hmem
  simp only at hr
  have hlt : frame_id < (num_frames : Int) := by omega
  have hv : invalidFrame s frame_id = false :=
    valid_of_range s frame_id hr.1 (by rw [hinv.cap]; exact hr.2)
  have hrem := remove_evictable s frame_id node hv hfind he
  have hrem2 : Remove s frame_id = (.returned (), erased s frame_id) := hrem
  have hinv2 := inv_remove num_frames k s frame_id hinv
  rw [hrem2] at hinv2
  have hcount := evCount_erase s.node_store_ frame_id node hinv.nodup hfind
  simp only [he, if_true] at hcount
  have hc0 := hinv.count
  have hsize : ∀ after : LRUKReplacer, after.curr_size_ = evCount after.node_store_ →
      after.node_store_ = UMap.erase s.node_store_ frame_id → Size after + 1 = Size s := by
    intro after e1 e2
    show after.curr_size_ + 1 = s.curr_size_
    rw [e1, e2, hc0]
    exact hcount
  refine ⟨⟨hr.1, hlt⟩, hrem2, ?_, ?_, ?_, ?_, ?_⟩
  · rw [hrem2]
    simp [find_after_erased]
  · intro g hg
    rw [hrem2]
    simp [find_after_erased, hg]
  · rw [hrem2]
    exact length_erase_of_find _ _ node hinv.nodup hfind
  · rw [hrem2]
    exact hsize (erased s frame_id) hinv2.count rfl
  · rw [hrem2]
    exact hcount

/-- Witness of C11: `Remove(1)` where frames 0 and 1 are tracked and evictable. -/
theorem remove_evictable_effect_witness :
    UMap.find mixedState.node_store_ 1 = some ⟨[3], 2, true⟩ ∧
      ((0 ≤ (1 : Int) ∧ (1 : Int) < ((5 : Nat) : Int)) ∧
        Remove mixedState 1 = (.returned (), erased mixedState 1) ∧
        UMap.find (Remove mixedState 1).2.node_store_ 1 = none ∧
        (∀ g, g ≠ 1 →
          UMap.find (Remove mixedState 1).2.node_store_ g = UMap.find mixedState.node_store_ g) ∧
        (Remove mixedState 1).2.node_store_.length + 1 = mixedState.node_store_.length ∧
        Size (Remove mixedState 1).2 + 1 = Size mixedState ∧
        evictableCount (Remove mixedState 1).2 + 1 = evictableCount mixedState) :=
  ⟨rfl, remove_evictable_effect 5 2 mixedState 1 ⟨[3], 2, true⟩ reachable_mixedState rfl rfl⟩


theorem setEvictable_returns (s : LRUKReplacer) (f : Int) (b : Bool)
    (hv : invalidFrame s f = false) : (SetEvictable s f b).1 = .returned () := by
  cases hfind : UMap.find s.node_store_ f with
  | some node =>
    rw [setEvictable_found s f b node hv hfind]
    split
    · rfl
    · split <;> rfl
  | none =>
    rw [setEvictable_absent s f b hv hfind]
    split <;> rfl

theorem setEvictable_evCount (s : LRUKReplacer) (f : Int) (b : Bool)
    (hnd : (s.node_store_.map Prod.fst).Nodup) (hv : invalidFrame s f = false) :
    evCount (SetEvictable s f b).2.node_store_ + (if trackedFlag s f = true then 1 else 0) =
      evCount s.node_store_ + (if b = true then 1 else 0) := by
  cases hfind : UMap.find s.node_store_ f with
  | some node =>
    have hflag : trackedFlag s f = node.is_evictable_ := by simp [trackedFlag, hfind]
    rw [setEvictable_found s f b node hv hfind, hflag]
    split
    · rename_i hc
      have := evCount_modify s.node_store_ f (fun n => n.SetIsEvictable false) node hnd hfind
      simp only [LRUKNode.SetIsEvictable] at this ⊢
      simp only [hc.1, hc.2] at this ⊢
      exact this
    · split
      · rename_i hc
        have := evCount_modify s.node_store_ f (fun n => n.SetIsEvictable true) node hnd hfind
        simp only [LRUKNode.SetIsEvictable] at this ⊢
        simp only [hc.1, hc.2] at this ⊢
        exact this
      · rename_i h1 h2
        cases hn : node.is_evictable_ <;> cases b <;> simp_all
  | none =>
    have hflag : trackedFlag s f = false := by simp [trackedFlag, hfind]
    rw [setEvictable_absent s f b hv hfind, hflag]
    split
    · rename_i hb
      simp [evCount_append, LRUKNode.SetIsEvictable, hb]
    · rename_i hb
      simp [evCount_append, LRUKNode.ofK, hb]

/-- C12: in every state of the policy and for every frame in range,
`SetEvictable(f, v)` returns and leaves `f` tracked with its flag equal to `v` and
its timestamps as they were (none for a frame that was not tracked).  `curr_size_`
goes up by 1 when the flag was unset (or the frame not tracked) and `v` is true,
down by 1 when the flag was set and `v` is false, and stays otherwise.  Every other
frame is looked up as before, and the same call made again leaves the state as it
is. -/
theorem setEvictable_effect (num_frames k : Nat) (s : LRUKReplacer) (frame_id : Int)
    (v : Bool) (h : Reachable num_frames k s) (h0 : 0 ≤ frame_id)
    (h1 : frame_id < (num_frames : Int)) :
    (SetEvictable s frame_id v).1 = .returned () ∧
      (∃ node, UMap.find (SetEvictable s frame_id v).2.node_store_ frame_id = some node ∧
        node.is_evictable_ = v ∧ node.history_ = trackedHistory s frame_id) ∧
      (trackedFlag s frame_id = false → v = true →
        Size (SetEvictable s frame_id v).2 = Size s + 1) ∧
      (trackedFlag s frame_id = true → v = false →
        Size (SetEvictable s frame_id v).2 + 1 = Size s) ∧
      (trackedFlag s frame_id = v → Size (SetEvictable s frame_id v).2 = Size s) ∧
      (∀ g, g ≠ frame_id →
        UMap.find (SetEvictable s frame_id v).2.node_store_ g = UMap.find s.node_store_ g) ∧
      SetEvictable (SetEvictable s frame_id v).2 frame_id v =
        (.returned (), (SetEvictable s frame_id v).2) := by
  have hinv := reachable_inv num_frames k s h
  have hv : invalidFrame s frame_id = false :=
    valid_of_range s frame_id h0 (by rw [hinv.cap]; omega)
  have hinv2 := inv_setEvictable num_frames k s frame_id v hinv
  have hv2 : invalidFrame (SetEvictable s frame_id v).2 frame_id = false :=
    valid_of_range _ frame_id h0 (by rw [hinv2.cap]; omega)
  have hcount := setEvictable_evCount s frame_id v hinv.nodup hv
  have hc0 : Size s = evCount s.node_store_ := hinv.count
  have hc1 : Size (SetEvictable s frame_id v).2 = evCount (SetEvictable s frame_id v).2.node_store_ :=
    hinv2.count
  have hfindf := find_after_setEvictable s frame_id frame_id v hv
  simp only [if_true] at hfindf
  refine ⟨setEvictable_returns s frame_id v hv, ?_, ?_, ?_, ?_, ?_, ?_⟩
  · refine ⟨_, hfindf, rfl, ?_⟩
    cases hfind : UMap.find s.node_store_ frame_id <;>
      simp [trackedHistory, hfind, LRUKNode.SetIsEvictable, LRUKNode.ofK]
  · intro hf hb
    subst hb
    simp only [hf, if_true] at hcount
    simp at hcount
    omega
  · intro hf hb
    subst hb
    simp only [hf, if_true] at hcount
    simp at hcount
    omega
  · intro hf
    rw [hf] at hcount
    omega
  · intro g hg
    rw [find_after_setEvictable s frame_id g v hv]
    simp [hg]
  · rw [setEvictable_found _ frame_id v _ hv2 hfindf]
    cases v <;> simp [LRUKNode.SetIsEvictable]

/-- Witness of C12: `SetEvictable(3, true)` where frame 3 is tracked and pinned. -/
theorem setEvictable_effect_witness :
    (SetEvictable pinnedState 3 true).1 = .returned () ∧
      (∃ node, UMap.find (SetEvictable pinnedState 3 true).2.node_store_ 3 = some node ∧
        node.is_evictable_ = true ∧ node.history_ = trackedHistory pinnedState 3) ∧
      (trackedFlag pinnedState 3 = false → true = true →
        Size (SetEvictable pinnedState 3 true).2 = Size pinnedState + 1) ∧
      (trackedFlag pinnedState 3 = true → true = false →
        Size (SetEvictable pinnedState 3 true).2 + 1 = Size pinnedState) ∧
      (trackedFlag pinnedState 3 = true →
        Size (SetEvictable pinnedState 3 true).2 = Size pinnedState) ∧
      (∀ g, g ≠ 3 →
        UMap.find (SetEvictable pinnedState 3 true).2.node_store_ g =
          UMap.find pinnedState.node_store_ g) ∧
      SetEvictable (SetEvictable pinnedState 3 true).2 3 true =
        (.returned (), (SetEvictable pinnedState 3 true).2) :=
  setEvictable_effect 5 2 pinnedState 3 true reachable_pinnedState (by decide) (by decide)


/-- C13: in every state of the policy and for every frame in range,
`RecordAccess(f, t)` returns and changes nothing but the entry of `f`: `curr_size_`
and the number of evictable entries are as before and every other frame is looked
up as before.  The entry of `f` keeps its flag (a frame that was not tracked gets
the flag `false`) and its timestamps are the old ones followed by `t`, without the
oldest one when that makes more than `k`. -/
theorem recordAccess_effect (num_frames k : Nat) (s : LRUKReplacer) (frame_id : Int)
    (t : Nat) (h : Reachable num_frames k s) (h0 : 0 ≤ frame_id)
    (h1 : frame_id < (num_frames : Int)) :
    (RecordAccess s frame_id t).1 = .returned () ∧
      Size (RecordAccess s frame_id t).2 = Size s ∧
      evictableCount (RecordAccess s frame_id t).2 = evictableCount s ∧
      (∀ g, g ≠ frame_id →
        UMap.find (RecordAccess s frame_id t).2.node_store_ g = UMap.find s.node_store_ g) ∧
      ∃ node, UMap.find (RecordAccess s frame_id t).2.node_store_ frame_id = some node ∧
        node.is_evictable_ = trackedFlag s frame_id ∧ node.k_ = k ∧
        node.history_ =
          (trackedHistory s frame_id ++ [t]).drop ((trackedHistory s frame_id).length + 1 - k) := by
  have hinv := reachable_inv num_frames k s h
  have hv : invalidFrame s frame_id = false :=
    valid_of_range s frame_id h0 (by rw [hinv.cap]; omega)
  have hfindf := find_after_recordAccess s frame_id frame_id t hv
  simp only [if_true] at hfindf
  refine ⟨recordAccess_returns s frame_id t hv, recordAccess_size s frame_id t,
    recordAccess_evCount s frame_id t hinv.nodup, ?_, _, hfindf, ?_⟩
  · intro g hg
    rw [find_after_recordAccess s frame_id g t hv]
    simp [hg]
  · cases hfind : UMap.find s.node_store_ frame_id with
    | some node =>
      have hmem := umap_find_mem _ _ _ hfind
      have hk := hinv.node_k _ hmem
      have hl := hinv.len _ hmem
      simp only at hk hl
      simp only [Option.getD_some, append_flag, append_k, trackedFlag, trackedHistory, hfind]
      refine ⟨trivial, hk, ?_⟩
      rw [append_history node t (by omega), hk]
    | none =>
      simp only [Option.getD_none, append_flag, append_k, trackedFlag, trackedHistory, hfind]
      refine ⟨rfl, hinv.kk, ?_⟩
      rw [append_history _ t (by simp [LRUKNode.ofK])]
      simp [LRUKNode.ofK, hinv.kk]

/-- Witness of C13: `RecordAccess(0, 7)` where frame 0 has the timestamps 1 and 2
(`k = 2`) and is evictable: it keeps 2 and 7 and stays evictable. -/
theorem recordAccess_effect_witness :
    UMap.find (RecordAccess mixedState 0 7).2.node_store_ 0 = some ⟨[2, 7], 2, true⟩ ∧
      ((RecordAccess mixedState 0 7).1 = .returned () ∧
        Size (RecordAccess mixedState 0 7).2 = Size mixedState ∧
        evictableCount (RecordAccess mixedState 0 7).2 = evictableCount mixedState ∧
        (∀ g, g ≠ 0 →
          UMap.find (RecordAccess mixedState 0 7).2.node_store_ g =
            UMap.find mixedState.node_store_ g) ∧
        ∃ node, UMap.find (RecordAccess mixedState 0 7).2.node_store_ 0 = some node ∧
          node.is_evictable_ = trackedFlag mixedState 0 ∧ node.k_ = 2 ∧
          node.history_ =
            (trackedHistory mixedState 0 ++ [7]).drop
              ((trackedHistory mixedState 0).length + 1 - 2)) :=
  ⟨rfl, recordAccess_effect 5 2 mixedState 0 7 reachable_mixedState (by decide) (by decide)⟩

/-- C14: in every reachable state in which `Evict()` returns the frame `F`, a
`RecordAccess(F, t)` that follows returns and leaves `F` tracked with the single
timestamp `t`, none of the timestamps from before the eviction, and with its flag
unset. -/
theorem record_after_evict_fresh (num_frames k : Nat) (s : LRUKReplacer) (F : Int) (t : Nat)
    (h : Reachable num_frames k s) (hF : (Evict s).1 = .returned (some F)) :
    UMap.find (Evict s).2.node_store_ F = none ∧
      (RecordAccess (Evict s).2 F t).1 = .returned () ∧
      UMap.find (RecordAccess (Evict s).2 F t).2.node_store_ F = some ⟨[t], k, false⟩ := by
  have hinv := reachable_inv num_frames k s h
  obtain ⟨sc, hscan, hpick⟩ := evict_returned_some s F hF
  obtain ⟨v, hv, _⟩ := pick_mem (candidates sc) F hpick
  obtain ⟨p, hp, hp1, hp2, _⟩ := candidates_sound s.node_store_ sc hscan (F, v) hv
  simp only at hp1
  have hk : 1 ≤ k := by
    have hlen := hinv.len p hp
    have hkk := hinv.node_k p hp
    by_cases hl : p.2.history_.length < p.2.k_
    · omega
    · have hne := scan_full_nonempty _ scanInit sc hscan p hp hp2 hl
      have := List.length_pos.mpr hne
      omega
  have hfind : UMap.find s.node_store_ F = some p.2 := by
    apply umap_mem_find _ hinv.nodup
    rw [← hp1]
    exact hp
  have hr := hinv.range p hp
  rw [hp1] at hr
  have hvalid : invalidFrame s F = false :=
    valid_of_range s F hr.1 (by rw [hinv.cap]; exact hr.2)
  have hcount : s.curr_size_ ≠ 0 := by
    rw [hinv.count]
    have : p ∈ s.node_store_.filter (fun p => p.2.is_evictable_) :=
      List.mem_filter.mpr ⟨hp, hp2⟩
    have := List.length_pos_of_mem this
    simp only [evCount]
    omega
  have hev := evict_of_parts s sc F p.2 hcount hscan hpick hvalid hfind hp2
  have hvalid2 : invalidFrame (erased s F) F = false := hvalid
  have hnone : UMap.find (erased s F).node_store_ F = none := by
    simp [find_after_erased]
  rw [hev]
  refine ⟨hnone, recordAccess_returns _ F t hvalid2, ?_⟩
  rw [find_after_recordAccess _ F F t hvalid2]
  simp only [if_true, hnone, Option.getD_none]
  have hkk : (erased s F).k_ = k := hinv.kk
  have hnot : ¬ 1 > k := by omega
  simp [LRUKNode.Append, LRUKNode.ofK, hkk, hnot]

/-- Witness of C14: `Evict()` returns frame 1 of the two evictable frames, and
`RecordAccess(1, 9)` starts its history again. -/
theorem record_after_evict_fresh_witness :
    (Evict mixedState).1 = .returned (some 1) ∧
      (UMap.find (Evict mixedState).2.node_store_ 1 = none ∧
        (RecordAccess (Evict mixedState).2 1 9).1 = .returned () ∧
        UMap.find (RecordAccess (Evict mixedState).2 1 9).2.node_store_ 1 =
          some ⟨[9], 2, false⟩) :=
  ⟨rfl, record_after_evict_fresh 5 2 mixedState 1 9 reachable_mixedState rfl⟩


/-! ## Which tracked frames have a timestamp -/

theorem traced_reachable (n k : Nat) (s : LRUKReplacer) (recorded : List Int)
    (h : Traced n k s recorded) : Reachable n k s := by
  induction h with
  | new hn hk => exact Reachable.new hn hk
  | recordAccess s _ f ts _ hts ih => exact Reachable.recordAccess s f ts ih hts
  | setEvictable s _ f b _ ih => exact Reachable.setEvictable s f b ih
  | remove s _ f _ ih => exact Reachable.remove s f ih
  | evict s _ _ ih => exact Reachable.evict s ih
  | rehash s _ order _ hp ih => exact Reachable.rehash s order ih hp

theorem reachable_traced (n k : Nat) (s : LRUKReplacer) (h : Reachable n k s) :
    ∃ recorded, Traced n k s recorded := by
  induction h with
  | new hn hk => exact ⟨_, Traced.new hn hk⟩
  | recordAccess s f ts _ hts ih =>
    obtain ⟨r, hr⟩ := ih
    exact ⟨_, Traced.recordAccess s r f ts hr hts⟩
  | setEvictable s f b _ ih =>
    obtain ⟨r, hr⟩ := ih
    exact ⟨_, Traced.setEvictable s r f b hr⟩
  | remove s f _ ih =>
    obtain ⟨r, hr⟩ := ih
    exact ⟨_, Traced.remove s r f hr⟩
  | evict s _ ih =>
    obtain ⟨r, hr⟩ := ih
    exact ⟨_, Traced.evict s r hr⟩
  | rehash s order _ hp ih =>
    obtain ⟨r, hr⟩ := ih
    exact ⟨_, Traced.rehash s r order hr hp⟩

theorem append_nonempty (node : LRUKNode) (ts : Nat) (hk : 1 ≤ node.k_) :
    (node.Append ts).history_ ≠ [] := by
  simp only [LRUKNode.Append]
  split
  · rename_i hlen
    simp only [List.length_append, List.length_singleton] at hlen
    cases hh : node.history_ with
    | nil =>
      rw [hh] at hlen
      simp at hlen
      omega
    | cons a rest => simp
  · simp

theorem remove_cases (s : LRUKReplacer) (f : Int) :
    Remove s f = (.returned (), erased s f) ∨ ∃ e, Remove s f = (.thrown e, s) := by
  cases hv : invalidFrame s f with
  | true => exact Or.inr ⟨_, remove_invalid s f hv⟩
  | false =>
    cases hfind : UMap.find s.node_store_ f with
    | none => exact Or.inr ⟨_, remove_absent s f hv hfind⟩
    | some node =>
      cases he : node.is_evictable_ with
      | false => exact Or.inr ⟨_, remove_pinned s f node hv hfind he⟩
      | true => exact Or.inl (remove_evictable s f node hv hfind he)

theorem evict_cases (s : LRUKReplacer) :
    (∃ F, Evict s = (.returned (some F), erased s F)) ∨
      ((Evict s).2 = s ∧ ∀ F, (Evict s).1 ≠ .returned (some F)) := by
  unfold Evict
  split
  · right; simp
  · split
    · right; simp
    · right; simp
    · simp only
      split
      · right; simp
      · rename_i frame_id _
        rcases remove_cases s frame_id with hr | ⟨e, hr⟩
        · left
          exact ⟨frame_id, by rw [hr]⟩
        · right
          rw [hr]
          simp

theorem umap_find_perm {V : Type} (m1 m2 : UMap V) (hnd : (m2.map Prod.fst).Nodup)
    (hp : m1.Perm m2) (g : Int) : UMap.find m1 g = UMap.find m2 g := by
  have hnd1 : (m1.map Prod.fst).Nodup := (hp.map Prod.fst).nodup_iff.mpr hnd
  cases hfind : UMap.find m2 g with
  | some v =>
    exact umap_mem_find m1 hnd1 g v (hp.mem_iff.mpr (umap_find_mem m2 g v hfind))
  | none =>
    rw [umap_find_none_iff] at hfind ⊢
    intro hmem
    exact hfind ((hp.map Prod.fst).mem_iff.mp hmem)


theorem traced_recorded (n k : Nat) (s : LRUKReplacer) (recorded : List Int) (hk : 1 ≤ k)
    (h : Traced n k s recorded) :
    ∀ f ∈ recorded, ∃ node, UMap.find s.node_store_ f = some node ∧ node.history_ ≠ [] := by
  induction h with
  | new _ _ => simp
  | recordAccess s r f ts htr _ ih =>
    have hinv := reachable_inv n k s (traced_reachable n k s r htr)
    cases hv : invalidFrame s f with
    | true =>
      have hs : (RecordAccess s f ts).2 = s := by simp [RecordAccess, hv]
      rw [hs]
      simpa using ih
    | false =>
      intro g hg
      simp only [Bool.false_eq_true, if_false, List.mem_cons] at hg
      rw [find_after_recordAccess s f g ts hv]
      by_cases hgf : g = f
      · simp only [hgf, if_true]
        refine ⟨_, rfl, append_nonempty _ ts ?_⟩
        cases hfind : UMap.find s.node_store_ f with
        | some node =>
          have := hinv.node_k _ (umap_find_mem _ _ _ hfind)
          simp only at this
          simp only [Option.getD_some, this]
          exact hk
        | none =>
          simp only [Option.getD_none, LRUKNode.ofK, hinv.kk]
          exact hk
      · simp only [hgf, if_false]
        rcases hg with hg | hg
        · exact absurd hg hgf
        · exact ih g hg
  | setEvictable s r f b _ ih =>
    cases hv : invalidFrame s f with
    | true =>
      have hs : (SetEvictable s f b).2 = s := by simp [SetEvictable, hv]
      rw [hs]
      exact ih
    | false =>
      intro g hg
      rw [find_after_setEvictable s f g b hv]
      obtain ⟨node, hnode, hne⟩ := ih g hg
      by_cases hgf : g = f
      · subst hgf
        simp only [if_true, hnode, Option.getD_some]
        exact ⟨_, rfl, hne⟩
      · simp only [hgf, if_false]
        exact ⟨node, hnode, hne⟩
  | remove s r f _ ih =>
    rcases remove_cases s f with hr | ⟨e, hr⟩
    · intro g hg
      simp only [recordedAfterRemove, hr, List.mem_filter, decide_eq_true_eq] at hg
      rw [hr]
      simp only [find_after_erased, hg.2, if_false]
      exact ih g hg.1
    · intro g hg
      simp only [recordedAfterRemove, hr] at hg
      rw [hr]
      exact ih g hg
  | evict s r _ ih =>
    rcases evict_cases s with ⟨F, hev⟩ | ⟨hs, hno⟩
    · intro g hg
      simp only [recordedAfterEvict, hev, List.mem_filter, decide_eq_true_eq] at hg
      rw [hev]
      simp only [find_after_erased, hg.2, if_false]
      exact ih g hg.1
    · intro g hg
      rw [hs]
      apply ih g
      simp only [recordedAfterEvict] at hg
      exact hg
  | rehash s r order htr hp ih =>
    have hinv := reachable_inv n k s (traced_reachable n k s r htr)
    intro g hg
    simp only
    rw [umap_find_perm order s.node_store_ hinv.nodup hp g]
    exact ih g hg

theorem traced_mixedState : Traced 5 2 mixedState [1, 0, 0] :=
  Traced.setEvictable _ _ 1 true
    (Traced.setEvictable _ _ 0 true
      (Traced.recordAccess _ _ 1 3
        (Traced.recordAccess _ _ 0 2
          (Traced.recordAccess _ _ 0 1 (Traced.new (by decide) (by decide)) (by decide))
          (by decide))
        (by decide)))

/-- C15 as stated fails: after `New(5, 2)` (so `k ≥ 1`) and `SetEvictable(0, true)`
the table holds frame 0, which was never recorded, with an empty history. -/
theorem tracked_frame_without_history :
    Reachable 5 2 unrecordedState ∧ 1 ≤ 2 ∧
      UMap.find unrecordedState.node_store_ 0 = some ⟨[], 2, true⟩ ∧
      ∃ p ∈ unrecordedState.node_store_, p.2.history_ = [] :=
  ⟨reachable_unrecordedState, by decide, rfl, (0, ⟨[], 2, true⟩), by decide, rfl⟩

/-- C15, amended: in every state reachable from `New(capacity, k)` with `k ≥ 1`,
every frame in the table has at most `k` timestamps, and every frame for which a
`RecordAccess` went through since the frame last entered the table is in the table
with at least one timestamp.  (A frame that `SetEvictable` brought into the table
has none until its first `RecordAccess`.) -/
theorem history_bounds (num_frames k : Nat) (s : LRUKReplacer) (hk : 1 ≤ k)
    (h : Reachable num_frames k s) :
    (∀ p ∈ s.node_store_, p.2.history_.length ≤ k) ∧
      (∃ recorded, Traced num_frames k s recorded) ∧
      ∀ recorded, Traced num_frames k s recorded →
        ∀ f ∈ recorded, ∃ node, UMap.find s.node_store_ f = some node ∧
          node.history_ ≠ [] ∧ node.history_.length ≤ k := by
  have hinv := reachable_inv num_frames k s h
  refine ⟨hinv.len, reachable_traced num_frames k s h, ?_⟩
  intro recorded htr f hf
  obtain ⟨node, hnode, hne⟩ := traced_recorded num_frames k s recorded hk htr f hf
  exact ⟨node, hnode, hne, hinv.len _ (umap_find_mem _ _ _ hnode)⟩

/-- Witness of the amended C15: frames 0 and 1 after three `RecordAccess` calls and
two `SetEvictable` calls. -/
theorem history_bounds_witness :
    Reachable 5 2 mixedState ∧ Traced 5 2 mixedState [1, 0, 0] ∧
      ((∀ p ∈ mixedState.node_store_, p.2.history_.length ≤ 2) ∧
        (∃ recorded, Traced 5 2 mixedState recorded) ∧
        ∀ recorded, Traced 5 2 mixedState recorded →
          ∀ f ∈ recorded, ∃ node, UMap.find mixedState.node_store_ f = some node ∧
            node.history_ ≠ [] ∧ node.history_.length ≤ 2) :=
  ⟨reachable_mixedState, traced_mixedState,
    history_bounds 5 2 mixedState (by decide) reachable_mixedState⟩


/-! ## The history of a node -/

theorem lastK_append (k : Nat) (l r : List Nat) :
    ((l.drop (l.length - k)) ++ r).drop ((l.drop (l.length - k) ++ r).length - k) =
      (l ++ r).drop ((l ++ r).length - k) := by
  by_cases hl : l.length ≤ k
  · have : l.length - k = 0 := by omega
    simp [this]
  · have h1 : (l.drop (l.length - k)).length = k := by
      simp only [List.length_drop]
      omega
    have h2 : (l.drop (l.length - k) ++ r).length - k = r.length := by
      simp only [List.length_append, h1]
      omega
    have h3 : (l ++ r).length - k = (l.length - k) + r.length := by
      simp only [List.length_append]
      omega
    rw [h2, h3, ← List.drop_drop]
    congr 1
    rw [List.drop_append_of_le_length (by omega)]

theorem foldl_append_history (k : Nat) (ts : List Nat) (node : LRUKNode)
    (hk : node.k_ = k) (hl : node.history_.length ≤ k) :
    (ts.foldl LRUKNode.Append node).k_ = k ∧
      (ts.foldl LRUKNode.Append node).is_evictable_ = node.is_evictable_ ∧
      (ts.foldl LRUKNode.Append node).history_ =
        (node.history_ ++ ts).drop ((node.history_ ++ ts).length - k) := by
  induction ts generalizing node with
  | nil =>
    have : node.history_.length - k = 0 := by omega
    simp [hk, this]
  | cons t rest ih =>
    have hk1 : (node.Append t).k_ = k := by rw [append_k, hk]
    have hl1 : (node.Append t).history_.length ≤ k := by
      have := append_length_le node t (by omega)
      omega
    obtain ⟨h1, h2, h3⟩ := ih (node.Append t) hk1 hl1
    simp only [List.foldl_cons]
    refine ⟨h1, by rw [h2, append_flag], ?_⟩
    rw [h3, append_history node t (by omega), hk]
    have hlen : node.history_.length + 1 - k = (node.history_ ++ [t]).length - k := by simp
    rw [hlen, lastK_append k (node.history_ ++ [t]) rest]
    simp


/-- C16: for every `k` (so for every `k ≥ 1`) and every sequence of timestamps
appended in order to a node created with `k`, the history kept is the last
`min(n, k)` elements of the sequence, oldest first.  The node that `RecordAccess`
and `SetEvictable` create for an unseen frame is such a node. -/
theorem append_keeps_last_k (k : Nat) (ts : List Nat) :
    (appendAll (LRUKNode.ofK k) ts).history_ = ts.drop (ts.length - min ts.length k) ∧
      (appendAll (LRUKNode.ofK k) ts).history_.length = min ts.length k ∧
      LRUKNode.assign LRUKNode.fresh (LRUKNode.ofK k) = LRUKNode.ofK k := by
  obtain ⟨_, _, h3⟩ := foldl_append_history k ts (LRUKNode.ofK k) rfl (by simp [LRUKNode.ofK])
  have hmin : ts.length - min ts.length k = ts.length - k := by omega
  have hh : (appendAll (LRUKNode.ofK k) ts).history_ = ts.drop (ts.length - k) := by
    simpa [appendAll, LRUKNode.ofK] using h3
  refine ⟨by rw [hmin]; exact hh, ?_, rfl⟩
  rw [hh, List.length_drop]
  omega

/-- C17: for every `k ≥ 1` and every sequence `t1..tn` appended to a node created with
`k`, `GetKDistance` returns "none" exactly when `n < k`, and otherwise returns
`t(n-k+1)`, the element at index `n - k` counted from 0, which is the `k`-th most
recent timestamp. -/
theorem kdistance_after_appends (k : Nat) (ts : List Nat) (hk : 1 ≤ k) :
    ((appendAll (LRUKNode.ofK k) ts).GetKDistance = .returned none ↔ ts.length < k) ∧
      (k ≤ ts.length →
        ∃ x, ts[ts.length - k]? = some x ∧ ts.reverse[k - 1]? = some x ∧
          (appendAll (LRUKNode.ofK k) ts).GetKDistance = .returned (some x)) := by
  obtain ⟨h1, _, h3⟩ := foldl_append_history k ts (LRUKNode.ofK k) rfl (by simp [LRUKNode.ofK])
  have hh : (appendAll (LRUKNode.ofK k) ts).history_ = ts.drop (ts.length - k) := by
    simpa [appendAll, LRUKNode.ofK] using h3
  have hkk : (appendAll (LRUKNode.ofK k) ts).k_ = k := h1
  have hlen : (appendAll (LRUKNode.ofK k) ts).history_.length = ts.length - (ts.length - k) := by
    rw [hh, List.length_drop]
  have hfull : k ≤ ts.length →
      ∃ x, ts[ts.length - k]? = some x ∧ ts.reverse[k - 1]? = some x ∧
        (appendAll (LRUKNode.ofK k) ts).GetKDistance = .returned (some x) := by
    intro hge
    have hidx : ts.length - k < ts.length := by omega
    refine ⟨ts[ts.length - k], List.getElem?_eq_getElem hidx, ?_, ?_⟩
    · rw [List.getElem?_reverse (by omega)]
      have : ts.length - 1 - (k - 1) = ts.length - k := by omega
      rw [this]
      exact List.getElem?_eq_getElem hidx
    · have hnot : ¬ (appendAll (LRUKNode.ofK k) ts).history_.length <
          (appendAll (LRUKNode.ofK k) ts).k_ := by
        rw [hlen, hkk]
        omega
      have hhead : (appendAll (LRUKNode.ofK k) ts).history_.head? = some ts[ts.length - k] := by
        rw [hh, List.head?_drop]
        exact List.getElem?_eq_getElem hidx
      simp only [LRUKNode.GetKDistance, hnot, if_false, hhead]
  refine ⟨?_, hfull⟩
  constructor
  · intro hnone
    by_contra hge
    obtain ⟨x, _, _, hx⟩ := hfull (by omega)
    rw [hx] at hnone
    cases hnone
  · intro hlt
    have hless : (appendAll (LRUKNode.ofK k) ts).history_.length <
        (appendAll (LRUKNode.ofK k) ts).k_ := by
      rw [hlen, hkk]
      omega
    simp only [LRUKNode.GetKDistance, hless, if_true]

/-- Witness of C17: `k = 2` and the timestamps 1, 2, 3; the key is 2. -/
theorem kdistance_after_appends_witness :
    (appendAll (LRUKNode.ofK 2) [1, 2, 3]).GetKDistance = .returned (some 2) ∧
      (appendAll (LRUKNode.ofK 2) [1]).GetKDistance = .returned none ∧
      (((appendAll (LRUKNode.ofK 2) [1, 2, 3]).GetKDistance = .returned none ↔
          [1, 2, 3].length < 2) ∧
        (2 ≤ [1, 2, 3].length →
          ∃ x, [1, 2, 3][[1, 2, 3].length - 2]? = some x ∧
            [1, 2, 3].reverse[2 - 1]? = some x ∧
            (appendAll (LRUKNode.ofK 2) [1, 2, 3]).GetKDistance = .returned (some x))) :=
  ⟨rfl, rfl, kdistance_after_appends 2 [1, 2, 3] (by decide)⟩

/-- C18: in every state reachable from `New(capacity, k)` every frame id in the
table lies in `[0, capacity)`; the table has at most `capacity` entries and
`Size()` is at most `capacity`. -/
theorem tracked_frames_in_range (num_frames k : Nat) (s : LRUKReplacer)
    (h : Reachable num_frames k s) :
    s.replacer_size_ = num_frames ∧
      (∀ p ∈ s.node_store_, 0 ≤ p.1 ∧ p.1 < (num_frames : Int)) ∧
      s.node_store_.length ≤ num_frames ∧ Size s ≤ num_frames := by
  have hinv := reachable_inv num_frames k s h
  have hb := evCount_le_frames num_frames k s hinv
  have hc : Size s = evCount s.node_store_ := hinv.count
  refine ⟨hinv.cap, ?_, hb.2.1, by omega⟩
  intro p hp
  have := hinv.range p hp
  omega

/-- Witness of C18: a replacer of capacity 5 that tracks frames 0 and 1. -/
theorem tracked_frames_in_range_witness :
    Reachable 5 2 mixedState ∧
      (mixedState.replacer_size_ = 5 ∧
        (∀ p ∈ mixedState.node_store_, 0 ≤ p.1 ∧ p.1 < ((5 : Nat) : Int)) ∧
        mixedState.node_store_.length ≤ 5 ∧ Size mixedState ≤ 5) :=
  ⟨reachable_mixedState, tracked_frames_in_range 5 2 mixedState reachable_mixedState⟩


/-! ## The bucket index of HyperLogLog -/

theorem bucketIndexLoop_spec (binary i0 : Nat) (h0 : 64 - i0 ≤ 31) (hi0 : i0 ≤ 64)
    (fuel : Nat) :
    ∀ i p acc, i = i0 + p → acc = (binary / 2 ^ i0) % 2 ^ p → i ≤ 64 → 64 - i ≤ fuel →
      bucketIndexLoop binary fuel i p acc = some ((binary / 2 ^ i0) % 2 ^ (64 - i0)) := by
  induction fuel with
  | zero =>
    intro i p acc hi hacc hle hfuel
    have hp : p = 64 - i0 := by omega
    simp only [bucketIndexLoop, hacc, hp]
  | succ fuel ih =>
    intro i p acc hi hacc hle hfuel
    simp only [bucketIndexLoop, BITSET_CAPACITY]
    by_cases hlt : i < 64
    · simp only [hlt, if_true]
      have hbit : binary.testBit i = decide ((binary / 2 ^ i0) / 2 ^ p % 2 = 1) := by
        rw [Nat.testBit_to_div_mod, hi, Nat.pow_add, Nat.div_div_eq_div_mul]
      have hsucc := @Nat.mod_pow_succ (binary / 2 ^ i0) 2 p
      have hpos : 0 < 2 ^ p := Nat.pow_pos (by decide)
      have hmodlt : (binary / 2 ^ i0) % 2 ^ (p + 1) < 2 ^ (p + 1) :=
        Nat.mod_lt _ (Nat.pow_pos (by decide))
      have hpow : 2 ^ (p + 1) ≤ 2 ^ 31 := Nat.pow_le_pow_right (by decide) (by omega)
      by_cases hb : (binary / 2 ^ i0) / 2 ^ p % 2 = 1
      · have hnew : acc + 2 ^ p = (binary / 2 ^ i0) % 2 ^ (p + 1) := by
          rw [hsucc, hb, hacc]
          simp
        have hfit : acc + 2 ^ p ≤ INT_MAX := by
          rw [hnew]
          simp only [INT_MAX]
          omega
        simp only [hbit, hb, decide_True, if_true, hfit]
        exact ih (i + 1) (p + 1) _ (by omega) hnew (by omega) (by omega)
      · have hb0 : (binary / 2 ^ i0) / 2 ^ p % 2 = 0 := by omega
        have hnew : acc = (binary / 2 ^ i0) % 2 ^ (p + 1) := by
          rw [hsucc, hb0, hacc]
          simp
        simp only [hbit, hb, decide_False, Bool.false_eq_true, if_false]
        exact ih (i + 1) (p + 1) _ (by omega) hnew (by omega) (by omega)
    · have hp : p = 64 - i0 := by omega
      simp only [hlt, if_false, hacc, hp]

theorem bucketIndex_eq (hash n_bits : Nat) (hh : hash < 2 ^ 64) (hn : n_bits ≤ 30) :
    bucketIndex hash n_bits = some (hash / 2 ^ (64 - n_bits)) ∧
      hash / 2 ^ (64 - n_bits) < 2 ^ n_bits := by
  have hlt : hash / 2 ^ (64 - n_bits) < 2 ^ n_bits := by
    apply Nat.div_lt_of_lt_mul
    rw [← Nat.pow_add]
    have : 64 - n_bits + n_bits = 64 := by omega
    rw [this]
    exact hh
  refine ⟨?_, hlt⟩
  have h := bucketIndexLoop_spec hash (64 - n_bits) (by omega) (by omega) 64 (64 - n_bits) 0 0
    (by omega) (by simp [Nat.mod_one]) (by omega) (by omega)
  have h64 : 64 - (64 - n_bits) = n_bits := by omega
  rw [h64, Nat.mod_eq_of_lt hlt] at h
  simpa [bucketIndex, BITSET_CAPACITY] using h

theorem bucketAssert_pow (idx n_bits : Nat) (hn : n_bits ≤ 30) (hidx : idx < 2 ^ n_bits) :
    bucketAssert idx (2 ^ n_bits) = true := by
  have hpow : 2 ^ n_bits ≤ 2 ^ 30 := Nat.pow_le_pow_right (by decide) hn
  have hmod : 2 ^ n_bits % 2 ^ 32 = 2 ^ n_bits := Nat.mod_eq_of_lt (by omega)
  have hcast : castToInt (2 ^ n_bits) = ((2 ^ n_bits : Nat) : Int) := by
    simp only [castToInt, hmod]
    rw [if_pos (by omega)]
  simp only [bucketAssert, hcast, Bool.and_eq_true, decide_eq_true_eq]
  omega


/-- C19: for every 64-bit hash and every `n_bits` from 0 to 30, the loop that
`HyperLogLog::AddElem` and `HyperLogLogPresto::AddElem` share leaves in
`bucket_index` the number made of the top `n_bits` bits of the hash,
`hash / 2 ^ (64 - n_bits)`, without leaving the range of `int`; it is below
`2 ^ n_bits`, the number of buckets that either constructor makes, so the `assert`
holds and neither `AddElem` stops there, in the states the constructors make and in
every state with that number of buckets. -/
theorem bucket_index_is_top_bits (hash n_bits : Nat) (hh : hash < 2 ^ 64)
    (hn : n_bits ≤ 30) :
    bucketIndex hash n_bits = some (hash / 2 ^ (64 - n_bits)) ∧
      hash / 2 ^ (64 - n_bits) < 2 ^ n_bits ∧
      (HyperLogLog.New n_bits).buckets_.length = 2 ^ n_bits ∧
      (HyperLogLogPresto.New n_bits).dense_bucket_.length = 2 ^ n_bits ∧
      bucketAssert (hash / 2 ^ (64 - n_bits)) (2 ^ n_bits) = true ∧
      (∀ s : HyperLogLog, s.bits_ = n_bits → s.buckets_.length = 2 ^ n_bits →
        ∃ after, HyperLogLog.AddElem s hash = .returned after ∧
          after.bits_ = n_bits ∧ after.buckets_.length = 2 ^ n_bits) ∧
      (∀ (key : Nat → Int) (s : HyperLogLogPresto), s.bits_ = n_bits →
        s.dense_bucket_.length = 2 ^ n_bits →
        ∃ after, HyperLogLogPresto.AddElem key s hash = .returned after ∧
          after.bits_ = n_bits ∧ after.dense_bucket_.length = 2 ^ n_bits) := by
  obtain ⟨hidx, hlt⟩ := bucketIndex_eq hash n_bits hh hn
  have hassert := bucketAssert_pow _ n_bits hn hlt
  refine ⟨hidx, hlt, by simp [HyperLogLog.New], by simp [HyperLogLogPresto.New], hassert, ?_, ?_⟩
  · intro s hb hl
    simp only [HyperLogLog.AddElem, hb, hidx, hl, hassert, if_true]
    exact ⟨_, rfl, rfl, by simp [hl]⟩
  · intro key s hb hl
    simp only [HyperLogLogPresto.AddElem, hb, hidx, hl, hassert, if_true]
    split
    · exact ⟨_, rfl, rfl, by simp [hl]⟩
    · exact ⟨_, rfl, rfl, hl⟩

/-- Witness of C19: 4 leading bits of a hash whose top bits are 1011. -/
theorem bucket_index_is_top_bits_witness :
    bucketIndex (11 * 2 ^ 60 + 5) 4 = some 11 ∧
      (bucketIndex (11 * 2 ^ 60 + 5) 4 = some ((11 * 2 ^ 60 + 5) / 2 ^ (64 - 4)) ∧
        (11 * 2 ^ 60 + 5) / 2 ^ (64 - 4) < 2 ^ 4 ∧
        (HyperLogLog.New 4).buckets_.length = 2 ^ 4 ∧
        (HyperLogLogPresto.New 4).dense_bucket_.length = 2 ^ 4 ∧
        bucketAssert ((11 * 2 ^ 60 + 5) / 2 ^ (64 - 4)) (2 ^ 4) = true ∧
        (∀ s : HyperLogLog, s.bits_ = 4 → s.buckets_.length = 2 ^ 4 →
          ∃ after, HyperLogLog.AddElem s (11 * 2 ^ 60 + 5) = .returned after ∧
            after.bits_ = 4 ∧ after.buckets_.length = 2 ^ 4) ∧
        (∀ (key : Nat → Int) (s : HyperLogLogPresto), s.bits_ = 4 →
          s.dense_bucket_.length = 2 ^ 4 →
          ∃ after, HyperLogLogPresto.AddElem key s (11 * 2 ^ 60 + 5) = .returned after ∧
            after.bits_ = 4 ∧ after.dense_bucket_.length = 2 ^ 4)) :=
  ⟨by decide, bucket_index_is_top_bits (11 * 2 ^ 60 + 5) 4 (by decide) (by decide)⟩


/-! ## The registers of HyperLogLogPresto -/

theorem umap_subscript_fst {V : Type} (m : UMap V) (key : Int) (d : V) :
    (UMap.subscript m key d).1 = (UMap.find m key).getD d := by
  cases hfind : UMap.find m key with
  | some v => rw [umap_subscript_found m key d v hfind]; rfl
  | none => rw [umap_subscript_absent m key d hfind]; rfl

theorem erased_effect (n k : Nat) (s : LRUKReplacer) (f : Int) (node : LRUKNode)
    (hinv : Inv n k s) (hfind : UMap.find s.node_store_ f = some node)
    (he : node.is_evictable_ = true) :
    UMap.find (erased s f).node_store_ f = none ∧
      (∀ g, g ≠ f → UMap.find (erased s f).node_store_ g = UMap.find s.node_store_ g) ∧
      (erased s f).node_store_.length + 1 = s.node_store_.length ∧
      Size (erased s f) + 1 = Size s ∧
      evictableCount (erased s f) + 1 = evictableCount s := by
  have hmem := umap_find_mem _ _ _ hfind
  have hr := hinv.range _ hmem
  simp only at hr
  have hv : invalidFrame s f = false :=
    valid_of_range s f hr.1 (by rw [hinv.cap]; exact hr.2)
  have hrem : Remove s f = (.returned (), erased s f) := remove_evictable s f node hv hfind he
  have hinv2 := inv_remove n k s f hinv
  rw [hrem] at hinv2
  have hcount := evCount_erase s.node_store_ f node hinv.nodup hfind
  simp only [he, if_true] at hcount
  have hc0 := hinv.count
  have hsize : ∀ after : LRUKReplacer, after.curr_size_ = evCount after.node_store_ →
      after.node_store_ = UMap.erase s.node_store_ f → Size after + 1 = Size s := by
    intro after e1 e2
    show after.curr_size_ + 1 = s.curr_size_
    rw [e1, e2, hc0]
    exact hcount
  refine ⟨?_, ?_, ?_, hsize (erased s f) hinv2.count rfl, hcount⟩
  · simp [find_after_erased]
  · intro g hg
    simp [find_after_erased, hg]
  · exact length_erase_of_find _ _ node hinv.nodup hfind

/-- C8: in every reachable state (of a replacer built with `k ≥ 1`, as `New`
requires) that holds at least one evictable frame, `Evict()` returns a frame `F`,
not "none"; `F` was in the table and evictable before the call; after it `F` is no
longer in the table, the table has one entry less, `Size()` and the number of
evictable entries have gone down by exactly 1, and every other frame is looked up
as before. -/
theorem evict_removes_victim (num_frames k : Nat) (s : LRUKReplacer) (hk : 1 ≤ k)
    (h : Reachable num_frames k s)
    (hsome : ∃ a ∈ s.node_store_, a.2.is_evictable_ = true) :
    ∃ F node, Evict s = (.returned (some F), erased s F) ∧
      UMap.find s.node_store_ F = some node ∧ node.is_evictable_ = true ∧
      UMap.find (Evict s).2.node_store_ F = none ∧
      (∀ g, g ≠ F → UMap.find (Evict s).2.node_store_ g = UMap.find s.node_store_ g) ∧
      (Evict s).2.node_store_.length + 1 = s.node_store_.length ∧
      Size (Evict s).2 + 1 = Size s ∧
      evictableCount (Evict s).2 + 1 = evictableCount s := by
  have hinv := reachable_inv num_frames k s h
  have hfull : ∀ p ∈ s.node_store_, p.2.is_evictable_ = true →
      ¬ p.2.history_.length < p.2.k_ → p.2.history_ ≠ [] := by
    intro p hp _ hl hnil
    rw [hinv.node_k p hp, hnil] at hl
    simp at hl
    omega
  obtain ⟨_, F, _, node, _, _, _, hfind, he, hev⟩ := evict_core num_frames k s hinv hsome hfull
  obtain ⟨h1, h2, h3, h4, h5⟩ := erased_effect num_frames k s F node hinv hfind he
  refine ⟨F, node, hev, hfind, he, ?_, ?_, ?_, ?_, ?_⟩
  · rw [hev]; exact h1
  · rw [hev]; exact h2
  · rw [hev]; exact h3
  · rw [hev]; exact h4
  · rw [hev]; exact h5

/-- Witness of C8: after `New(5, 2)` and `SetEvictable(0, true)` the only evictable
frame is frame 0, which has no timestamp; `Evict()` returns it and `Size()` goes
from 1 to 0. -/
theorem evict_removes_victim_witness :
    Reachable 5 2 unrecordedState ∧
      Evict unrecordedState = (.returned (some 0), New 5 2) ∧
      Size unrecordedState = 1 ∧
      ∃ F node, Evict unrecordedState = (.returned (some F), erased unrecordedState F) ∧
        UMap.find unrecordedState.node_store_ F = some node ∧ node.is_evictable_ = true ∧
        UMap.find (Evict unrecordedState).2.node_store_ F = none ∧
        (∀ g, g ≠ F →
          UMap.find (Evict unrecordedState).2.node_store_ g =
            UMap.find unrecordedState.node_store_ g) ∧
        (Evict unrecordedState).2.node_store_.length + 1 =
          unrecordedState.node_store_.length ∧
        Size (Evict unrecordedState).2 + 1 = Size unrecordedState ∧
        evictableCount (Evict unrecordedState).2 + 1 = evictableCount unrecordedState :=
  ⟨reachable_unrecordedState, rfl, rfl,
    evict_removes_victim 5 2 unrecordedState (by decide) reachable_unrecordedState
      ⟨(0, ⟨[], 2, true⟩), by decide, rfl⟩⟩


end bustub
